import Mathlib

/-!
Verification of the MLP training engine in `week2_mlp_practice.py`.

The program is embedded shallowly:

* Matrices are `List (List ℚ)` in row-major order; numpy operations
  (`np.dot`, broadcasting `+`, elementwise maps) become the list functions
  below, exact over `ℚ`.
* The transcendental primitives `np.exp`, `np.log`, `np.sqrt` are opaque
  parameters bundled in a `NumModel`; every engine function is parametric
  in them. Facts that genuinely need real analysis (the `tanh` derivative
  claims) use a separate embedding over `ℝ` with `Real.exp`.
* The numpy global random generator is modelled as an abstract stream
  (`RngModel`) with a position counter threaded through the code. The
  Python `random` module generator, which the source seeds via `seed(1)`,
  is a separate field of `ProcState` that the draws never consult —
  mirroring the fact that `random.seed` does not seed `np.random`.
* In-place numpy mutation is made explicit: the engine state (`MLPState`)
  is threaded through `forward` / `backward` / `fit`; the aliasing
  `self.deltas[-1] = self.layers[-1]` followed by an in-place subtraction
  is modelled by writing the same updated matrix to both lists.
-/

set_option allowUnsafeReducibility true
attribute [semireducible] Rat.mul Rat.inv Rat.add Rat.sub Rat.div

/-- Row-major matrix of rationals. -/
abbrev Mat := List (List ℚ)

/-- Number of columns: length of the first row (0 for the empty matrix). -/
def Mat.ncols (M : Mat) : ℕ := (M.headD []).length

/-- Dot product of two vectors (truncating at the shorter one, as `zipWith`). -/
def dotQ (xs ys : List ℚ) : ℚ := (List.zipWith (· * ·) xs ys).sum

/-- Column `j` of a matrix, with missing entries read as 0. -/
def colQ (M : Mat) (j : ℕ) : List ℚ := M.map (fun r => r.getD j 0)

/-- Matrix product `A · B` (`np.dot` on 2-D arrays). -/
def matMul (A B : Mat) : Mat :=
  A.map (fun ar => (List.range B.ncols).map (fun j => dotQ ar (colQ B j)))

/-- `A · Bᵀ`: entry `(i, j)` is the dot product of row `i` of `A` with row `j` of `B`. -/
def matMulBT (A B : Mat) : Mat :=
  A.map (fun ar => B.map (fun br => dotQ ar br))

/-- `Aᵀ · B`: entry `(p, q)` is the dot product of column `p` of `A` with column `q` of `B`. -/
def matTMul (A B : Mat) : Mat :=
  (List.range A.ncols).map (fun p => (List.range B.ncols).map (fun q => dotQ (colQ A p) (colQ B q)))

/-- Broadcast addition of a row vector to every row (`M + b` in numpy). -/
def matAddVec (M : Mat) (v : List ℚ) : Mat :=
  M.map (fun r => List.zipWith (· + ·) r v)

/-- Elementwise matrix subtraction. -/
def matSub (A B : Mat) : Mat := List.zipWith (List.zipWith (· - ·)) A B

/-- Scalar multiple of a matrix. -/
def smulMat (c : ℚ) (A : Mat) : Mat := A.map (List.map (fun x => c * x))

/-- Elementwise (Hadamard) product. -/
def hadamard (A B : Mat) : Mat := List.zipWith (List.zipWith (· * ·)) A B

/-- Elementwise map over a matrix. -/
def matMap (f : ℚ → ℚ) (M : Mat) : Mat := M.map (List.map f)

/-- Sum of all entries. -/
def sumMat (M : Mat) : ℚ := (M.map List.sum).sum

/-- Shape predicate: `m` rows, every row of length `n`. -/
def hasShape (M : Mat) (m n : ℕ) : Prop := M.length = m ∧ ∀ r ∈ M, r.length = n

instance (M : Mat) (m n : ℕ) : Decidable (hasShape M m n) := by
  unfold hasShape; infer_instance

/-- The transcendental primitives `np.exp`, `np.log`, `np.sqrt`, kept opaque:
the engine is exact rational arithmetic parametric in them. -/
structure NumModel where
  exp : ℚ → ℚ
  log : ℚ → ℚ
  sqrt : ℚ → ℚ

/-- Abstract model of the numpy global random generator: a stream of draws
indexed by a position counter, plus the permutation (and counter cost)
produced by `np.random.shuffle` at a given position. -/
structure RngModel where
  next : ℕ → ℚ
  permAt : ℕ → ℕ → List ℕ
  permCost : ℕ → ℕ

/-- Process-wide random state: the Python `random` module state (`pyRng`),
which `seed(1)` resets, and the numpy stream position (`npk`), which the
weight draws consume. They are distinct generators, as in CPython/numpy. -/
structure ProcState where
  pyRng : ℕ
  npk : ℕ
deriving DecidableEq

/-- `np.random.uniform(lo, hi)` draw number `k`: an affine image of the
abstract unit draw `rng.next k`. -/
def uniformVal (rng : RngModel) (lo hi : ℚ) (k : ℕ) : ℚ := lo + (hi - lo) * rng.next k

/-- `np.random.uniform(lo, hi, n)`: `n` consecutive draws. -/
def drawVec (rng : RngModel) (lo hi : ℚ) (n k : ℕ) : List ℚ :=
  (List.range n).map (fun j => uniformVal rng lo hi (k + j))

/-- `np.random.uniform(lo, hi, size=(m, n))`: `m * n` consecutive draws, row major. -/
def drawMat (rng : RngModel) (lo hi : ℚ) (m n k : ℕ) : Mat :=
  (List.range m).map (fun r => (List.range n).map (fun c => uniformVal rng lo hi (k + r * n + c)))

/-- `sigmoid(x) = 1 / (1 + exp(-x))`, elementwise scalar form. -/
def sigmoidQ (nm : NumModel) (x : ℚ) : ℚ := 1 / (1 + nm.exp (-x))

/-- `dsigmoid(x) = x * (1 - x)`. -/
def dsigmoidQ (x : ℚ) : ℚ := x * (1 - x)

/-- `tanh(x) = 2 / (1 + exp(-2x)) - 1`. -/
def tanhQ (nm : NumModel) (x : ℚ) : ℚ := 2 / (1 + nm.exp (-(2 * x))) - 1

/-- `dtanh(z) = 1 - tanh(z)^2`: recomputes `tanh` on its argument. -/
def dtanhQ (nm : NumModel) (z : ℚ) : ℚ := 1 - (tanhQ nm z) ^ 2

/-- Row-wise softmax `(np.exp(X).T / np.sum(np.exp(X), axis=1)).T`:
every entry of a row is exponentiated and divided by that row's sum. -/
def softmaxQ (nm : NumModel) (M : Mat) : Mat :=
  M.map (fun r => r.map (fun x => nm.exp x / (r.map nm.exp).sum))

/-- The activation function selected by the configuration string
(`__init__` stores `sigmoid` or `tanh`; other strings are rejected there). -/
def actF (nm : NumModel) (activation : String) : ℚ → ℚ :=
  if activation = "sigmoid" then sigmoidQ nm else tanhQ nm

/-- The activation derivative selected by the configuration string. -/
def dactF (nm : NumModel) (activation : String) : ℚ → ℚ :=
  if activation = "sigmoid" then dsigmoidQ else dtanhQ nm

/-- Engine state: configuration attributes plus the four per-instance
mutable lists (`self.weights`, `self.bias`, `self.layers`, `self.deltas`). -/
structure MLPState where
  input_size : ℕ
  output_size : ℕ
  hidden_layer_size : List ℕ
  lr : ℚ
  reg_lambda : ℚ
  momentum : ℚ
  batch_size : ℕ
  n_layers : ℕ
  activation : String
  verbose : ℕ
  loss : String
  nclass : ℕ
  weights : List Mat
  bias : List (List ℚ)
  layers : List Mat
  deltas : List Mat
deriving DecidableEq

/-- The state `__init__` builds when both validation checks pass. -/
def initUnchecked (input_size output_size : ℕ) (hidden_layer_size : List ℕ)
    (batch_size : ℕ) (activation output_layer loss : String)
    (lr reg_lambda momentum : ℚ) (verbose : ℕ) : MLPState :=
  { input_size := input_size
    output_size := output_size
    hidden_layer_size := hidden_layer_size
    lr := lr
    reg_lambda := reg_lambda
    momentum := momentum
    batch_size := batch_size
    n_layers := hidden_layer_size.length
    activation := activation
    verbose := verbose
    loss := loss
    nclass := output_size
    weights := []
    bias := []
    layers := []
    deltas := []
    : MLPState }

/-- `MLP.__init__`: raises `ValueError` when the activation is neither
`sigmoid` nor `tanh`, or (otherwise) when the output layer is not
`softmax`; on success returns the fresh state with empty parameter store
and buffers. The `output_layer` check fires only when the activation check
passed, matching the statement order in the source. -/
def init (input_size output_size : ℕ) (hidden_layer_size : List ℕ)
    (batch_size : ℕ) (activation output_layer loss : String)
    (lr reg_lambda momentum : ℚ) (verbose : ℕ) : Except String MLPState :=
  if activation ≠ "sigmoid" ∧ activation ≠ "tanh" then
    Except.error "Currently only supoort sigmoid or tanh activations func!"
  else if output_layer ≠ "softmax" then
    Except.error "Currently only Support softmax output_layer!"
  else
    Except.ok (initUnchecked input_size output_size hidden_layer_size batch_size
      activation output_layer loss lr reg_lambda momentum verbose)

/-- `MLP.get_weight_bound`: `sqrt(2/(fan_in+fan_out))` for sigmoid,
`sqrt(6/(fan_in+fan_out))` for tanh. (For any other activation string the
source leaves `init_bound` unassigned and would fail; `__init__` rules that
out, and the model returns 0 on that unreachable branch.) -/
def get_weight_bound (nm : NumModel) (activation : String) (fan_in fan_out : ℕ) : ℚ :=
  if activation = "sigmoid" then nm.sqrt (2 / ((fan_in : ℚ) + (fan_out : ℚ)))
  else if activation = "tanh" then nm.sqrt (6 / ((fan_in : ℚ) + (fan_out : ℚ)))
  else 0

/-- The hidden-layer loop of `forward`: for each index `i` in order,
`net = layers[i-1] · weights[i-1] + bias[i-1]` and
`layers[i] = activation_func(net)`. -/
def forwardHidden (nm : NumModel) (activation : String) (ws : List Mat)
    (bs : List (List ℚ)) : List ℕ → List Mat → List Mat
  | [], layers => layers
  | i :: rest, layers =>
      let W := ws.getD (i - 1) []
      let Xp := layers.getD (i - 1) []
      let b := bs.getD (i - 1) []
      let net := matAddVec (matMul Xp W) b
      forwardHidden nm activation ws bs rest (layers.set i (matMap (actF nm activation) net))

/-- `MLP.forward`: writes the input into `layers[0]`, runs the hidden-layer
loop over `i = 1 .. n_layers`, then computes the output layer
`softmax(layers[n_layers] · weights[n_layers] + bias[n_layers])`, stores it
at `layers[-1]` and returns it. Returns the output together with the
updated state (the buffer overwrites are the only state change). -/
def forward (nm : NumModel) (s : MLPState) (X : Mat) : Mat × MLPState :=
  let layers0 := s.layers.set 0 X
  let layersH := forwardHidden nm s.activation s.weights s.bias (List.range' 1 s.n_layers) layers0
  let W := s.weights.getD s.n_layers []
  let Xl := layersH.getD s.n_layers []
  let b := s.bias.getD s.n_layers []
  let net := matAddVec (matMul Xl W) b
  let layersO := layersH.set (layersH.length - 1) (softmaxQ nm net)
  (layersO.getD (layersO.length - 1) [], { s with layers := layersO })

/-- `self.deltas[-1][range(X.shape[0]), y] -= 1`: for every row index
`i < nrows`, subtract 1 from the entry in column `y[i]` of row `i`. -/
def subOneAux (y : List ℕ) (nrows : ℕ) : ℕ → Mat → Mat
  | _, [] => []
  | i, row :: rest =>
      (if i < nrows then row.set (y.getD i 0) (row.getD (y.getD i 0) 0 - 1) else row) ::
        subOneAux y nrows (i + 1) rest

/-- The fancy-indexed in-place subtraction applied to a whole matrix. -/
def subOneAtLabels (M : Mat) (y : List ℕ) (nrows : ℕ) : Mat := subOneAux y nrows 0 M

/-- The hidden-delta loop of `backward`, run over `i = n_layers, …, 1`:
`deltas[i-1] = (deltas[i] · weights[i]ᵀ) * activation_dfunc(layers[i])`. -/
def backwardDeltas (nm : NumModel) (activation : String) (ws layersL : List Mat) :
    List ℕ → List Mat → List Mat
  | [], ds => ds
  | i :: rest, ds =>
      let a := layersL.getD i []
      let W := ws.getD i []
      let d := hadamard (matMulBT (ds.getD i []) W) (matMap (dactF nm activation) a)
      backwardDeltas nm activation ws layersL rest (ds.set (i - 1) d)

/-- The weight-update loop of `backward`, run over `i = n_layers, …, 0`:
`weights[i] = weights[i] - lr * (layers[i]ᵀ · deltas[i])`. -/
def backwardWeights (lr : ℚ) (layersL ds : List Mat) : List ℕ → List Mat → List Mat
  | [], ws => ws
  | i :: rest, ws =>
      let a := layersL.getD i []
      let W := ws.getD i []
      let delta := ds.getD i []
      backwardWeights lr layersL ds rest (ws.set i (matSub W (smulMat lr (matTMul a delta))))

/-- `MLP.backward`: under the cross-entropy loss, `deltas[-1] = layers[-1]`
binds the output delta to the *same* array as the output activation buffer,
and the in-place `-= 1` then mutates both; the model therefore writes the
updated matrix to the last slot of both lists. The hidden-delta loop and
the weight-update loop follow. Biases are never updated. -/
def backward (nm : NumModel) (s : MLPState) (X : Mat) (y : List ℕ) : MLPState :=
  let st1 :=
    if s.loss = "cross_entropy" then
      let dOut := subOneAtLabels (s.layers.getD (s.layers.length - 1) []) y X.length
      { s with layers := s.layers.set (s.layers.length - 1) dOut,
               deltas := s.deltas.set (s.deltas.length - 1) dOut }
    else s
  let ds2 := backwardDeltas nm s.activation st1.weights st1.layers
    ((List.range' 1 s.n_layers).reverse) st1.deltas
  let ws2 := backwardWeights s.lr st1.layers ds2 ((List.range (s.n_layers + 1)).reverse) st1.weights
  { st1 with deltas := ds2, weights := ws2 }

/-- Row vector times matrix (`np.dot` of a `(1, n)` array with an `(n, k)` array). -/
def vecMatQ (v : List ℚ) (M : Mat) : List ℚ :=
  (List.range M.ncols).map (fun j => dotQ v (colQ M j))

/-- `MLP.compute_loss`: runs `forward` on the whole dataset (mutating the
buffers), computes `np.sum(np.dot(-y, log a) - np.dot(1-y, log(1-a)))` on
the raw integer labels, adds `0.5 * reg_lambda * sum(weights[i]^2)` for
`i = 0 .. n_layers`, and divides by the sample count. -/
def compute_loss (nm : NumModel) (s : MLPState) (X : Mat) (y : List ℕ) : ℚ × MLPState :=
  let n : ℚ := (X.length : ℚ)
  let p := forward nm s X
  let a := p.1
  let yq : List ℚ := y.map (fun v : ℕ => (v : ℚ))
  let t1 := vecMatQ (yq.map (fun v => -v)) (matMap nm.log a)
  let t2 := vecMatQ (yq.map (fun v => 1 - v)) (matMap nm.log (matMap (fun x => 1 - x) a))
  let dataLoss := (List.zipWith (· - ·) t1 t2).sum
  let reg := ((List.range (s.n_layers + 1)).map
    (fun i => 1 / 2 * s.reg_lambda * sumMat (matMap (fun w => w ^ 2) (s.weights.getD i [])))).sum
  (1 / n * (dataLoss + reg), p.2)

/-- First index of the maximum entry (`np.argmax` keeps the earliest maximum). -/
def argmaxAux : ℕ → ℚ → ℕ → List ℚ → ℕ
  | bi, _, _, [] => bi
  | bi, bv, i, x :: xs => if bv < x then argmaxAux i x (i + 1) xs else argmaxAux bi bv (i + 1) xs

/-- `np.argmax` along a row. -/
def argmaxIdx : List ℚ → ℕ
  | [] => 0
  | x :: xs => argmaxAux 0 x 1 xs

/-- `MLP.score`: accuracy `np.sum((argmax rows == y) * 1.0 / n_samples)`,
together with the state mutated by the embedded `forward` call. -/
def score (nm : NumModel) (s : MLPState) (X : Mat) (y : List ℕ) : ℚ × MLPState :=
  let n : ℚ := (X.length : ℚ)
  let p := forward nm s X
  ((List.zipWith (fun row lbl => (if argmaxIdx row = lbl then (1 : ℚ) else 0) * (1 / n))
      p.1 y).sum, p.2)

/-- `MLP.predict` is exactly `forward`. -/
def predict (nm : NumModel) (s : MLPState) (X : Mat) : Mat × MLPState := forward nm s X

/-- The middle allocation loop of `fit` (`for i in range(1, len(hidden))`):
appends one weight matrix of shape `(hidden[i-1], hidden[i])` and one bias
of length `hidden[i]` per index, drawing from the numpy stream. -/
def allocHidden (nm : NumModel) (rng : RngModel) (activation : String) (hs : List ℕ) :
    List ℕ → List Mat × List (List ℚ) × ℕ → List Mat × List (List ℚ) × ℕ
  | [], acc => acc
  | i :: rest, (ws, bs, k) =>
      let fi := hs.getD (i - 1) 0
      let fo := hs.getD i 0
      let bd := get_weight_bound nm activation fi fo
      let w := drawMat rng (-bd) bd fi fo k
      let v := drawVec rng (-bd) bd fo (k + fi * fo)
      allocHidden nm rng activation hs rest (ws ++ [w], bs ++ [v], k + fi * fo + fo)

/-- The parameter-generation block of `fit`: appends (to whatever the store
already holds) the input→hidden₁ pair, the hidden-chain pairs, and the
last-hidden→output pair, consuming the numpy stream left to right. The
first fan-in is `n_features`, read off the argument `X`. -/
def allocParams (nm : NumModel) (rng : RngModel) (s : MLPState) (n_features k : ℕ) :
    MLPState × ℕ :=
  let h0 := s.hidden_layer_size.getD 0 0
  let bd0 := get_weight_bound nm s.activation n_features h0
  let w0 := drawMat rng (-bd0) bd0 n_features h0 k
  let v0 := drawVec rng (-bd0) bd0 h0 (k + n_features * h0)
  let k1 := k + n_features * h0 + h0
  let mid := allocHidden nm rng s.activation s.hidden_layer_size
    (List.range' 1 (s.hidden_layer_size.length - 1)) (s.weights ++ [w0], s.bias ++ [v0], k1)
  let hl := s.hidden_layer_size.getD (s.hidden_layer_size.length - 1) 0
  let bdL := get_weight_bound nm s.activation hl s.output_size
  let wL := drawMat rng (-bdL) bdL hl s.output_size mid.2.2
  let vL := drawVec rng (-bdL) bdL s.output_size (mid.2.2 + hl * s.output_size)
  ({ s with weights := mid.1 ++ [wL], bias := mid.2.1 ++ [vL] },
    mid.2.2 + hl * s.output_size + s.output_size)

/-- An all-zero matrix standing in for `np.empty`: the source never reads a
buffer entry before overwriting it, so the fill value is unobservable. -/
def zeroMat (m n : ℕ) : Mat := List.replicate m (List.replicate n 0)

/-- The buffer pre-allocation block of `fit`: appends one activation buffer
per layer (input, hiddens, output) and one delta buffer per non-input layer. -/
def allocBuffers (s : MLPState) : MLPState :=
  { s with
    layers := s.layers ++ [zeroMat s.batch_size s.input_size] ++
      s.hidden_layer_size.map (fun h => zeroMat s.batch_size h) ++
      [zeroMat s.batch_size s.output_size]
    deltas := s.deltas ++ s.hidden_layer_size.map (fun h => zeroMat s.batch_size h) ++
      [zeroMat s.batch_size s.output_size] }

/-- Batch start offsets `range(0, n_samples, batch_size)` (empty when the
step is 0, where Python would raise instead). -/
def batchStarts (n bs : ℕ) : List ℕ :=
  if bs = 0 then [] else (List.range ((n + bs - 1) / bs)).map (fun j => j * bs)

/-- The inner batch loop of an epoch: for each start offset, run `forward`
then `backward` on the slice `X[start : start + batch_size]`. -/
def runBatches (nm : NumModel) : List ℕ → MLPState → Mat → List ℕ → MLPState
  | [], s, _, _ => s
  | b :: rest, s, X, y =>
      let Xb := (X.drop b).take s.batch_size
      let yb := (y.drop b).take s.batch_size
      let s1 := (forward nm s Xb).2
      let s2 := backward nm s1 Xb yb
      runBatches nm rest s2 X y

/-- The epoch loop of `fit`: optional co-shuffle of `X` and `y` via a fresh
numpy permutation, the batch loop, and — when `epoch % verbose == 0` — the
logging block, which recomputes full-dataset loss and accuracy (both call
`forward` on the whole dataset, so they overwrite the buffers; their
returned numbers are only printed). -/
def epochLoop (nm : NumModel) (rng : RngModel) (shuffle_data : Bool) (n_samples : ℕ) :
    ℕ → ℕ → MLPState → Mat → List ℕ → ℕ → MLPState × ℕ
  | 0, _, s, _, _, k => (s, k)
  | remaining + 1, i, s, X, y, k =>
      let sh :=
        if shuffle_data then
          let idx := rng.permAt k X.length
          (idx.map (fun j => X.getD j []), idx.map (fun j => y.getD j 0), k + rng.permCost X.length)
        else (X, y, k)
      let s1 := runBatches nm (batchStarts n_samples s.batch_size) s sh.1 sh.2.1
      let s2 :=
        if i % s.verbose = 0 then
          (score nm (compute_loss nm s1 sh.1 sh.2.1).2 sh.1 sh.2.1).2
        else s1
      epochLoop nm rng shuffle_data n_samples remaining (i + 1) s2 sh.1 sh.2.1 sh.2.2

/-- `MLP.fit`: checks that the sample counts of `X` and `y` agree (raising
the shape-mismatch `ValueError` before anything else happens), calls
`seed(1)` — which resets the *Python* generator, not the numpy stream the
draws consume — then appends freshly drawn parameters and buffers to the
instance lists (unconditionally, on every call) and runs the epoch loop.
Returns the error option, the mutated engine, and the process random state. -/
def fit (nm : NumModel) (rng : RngModel) (s : MLPState) (X : Mat) (y : List ℕ)
    (max_epochs : ℕ) (shuffle_data : Bool) (p : ProcState) :
    Option String × MLPState × ProcState :=
  if y.length ≠ X.length then (some "Shapes of X and y dont fit!", s, p)
  else
    let p1 : ProcState := { pyRng := 1, npk := p.npk }
    let al := allocParams nm rng s X.ncols p1.npk
    let s2 := allocBuffers al.1
    let r := epochLoop nm rng shuffle_data X.length max_epochs 0 s2 X y al.2
    (none, r.1, { pyRng := p1.pyRng, npk := r.2 })

/-- Concrete numeric primitives used by witnesses: constant exponential and
logarithm, identity square root. -/
def nmOne : NumModel := ⟨fun _ => 1, fun _ => 1, fun q => q⟩

/-- Concrete random model used by witnesses: the stream of naturals and
identity permutations. -/
def rngId : RngModel := ⟨fun k => (k : ℚ), fun _ n => List.range n, fun _ => 0⟩

theorem getD_set_eq {α : Type} (l : List α) (i : ℕ) (a d : α) (h : i < l.length) :
    (l.set i a).getD i d = a := by
  induction l generalizing i with
  | nil => simp at h
  | cons x xs ih =>
      cases i with
      | zero => rfl
      | succ n => simpa using ih n (by simpa using h)

theorem getD_set_ne {α : Type} (l : List α) (i j : ℕ) (a d : α) (h : i ≠ j) :
    (l.set i a).getD j d = l.getD j d := by
  induction l generalizing i j with
  | nil => rfl
  | cons x xs ih =>
      cases i with
      | zero => cases j with
        | zero => exact absurd rfl h
        | succ m => rfl
      | succ n => cases j with
        | zero => rfl
        | succ m => simpa using ih n m (by omega)

theorem set_oob {α : Type} (l : List α) (i : ℕ) (a : α) (h : l.length ≤ i) :
    l.set i a = l := by
  induction l generalizing i with
  | nil => rfl
  | cons x xs ih =>
      cases i with
      | zero => simp at h
      | succ n => simpa using ih n (by simpa using h)

theorem backwardWeights_length (lr : ℚ) (L D : List Mat) (idxs : List ℕ) (ws : List Mat) :
    (backwardWeights lr L D idxs ws).length = ws.length := by
  induction idxs generalizing ws with
  | nil => rfl
  | cons i rest ih =>
      show (backwardWeights lr L D rest (ws.set i (matSub (ws.getD i [])
        (smulMat lr (matTMul (L.getD i []) (D.getD i [])))))).length = ws.length
      rw [ih, List.length_set]

/-- The weight-update loop writes each listed index once, with the update
read off the pre-loop weights (the indices are pairwise distinct, so the
reads never see a write of the same loop). -/
theorem backwardWeights_getD (lr : ℚ) (L D : List Mat) (idxs : List ℕ) (ws : List Mat)
    (hnd : idxs.Nodup) (j : ℕ) :
    (backwardWeights lr L D idxs ws).getD j [] =
      if j ∈ idxs ∧ j < ws.length then
        matSub (ws.getD j []) (smulMat lr (matTMul (L.getD j []) (D.getD j [])))
      else ws.getD j [] := by
  induction idxs generalizing ws with
  | nil => simp [backwardWeights]
  | cons i rest ih =>
      have hi : i ∉ rest := (List.nodup_cons.mp hnd).1
      have hr : rest.Nodup := (List.nodup_cons.mp hnd).2
      show (backwardWeights lr L D rest
        (ws.set i (matSub (ws.getD i []) (smulMat lr (matTMul (L.getD i []) (D.getD i [])))))).getD j [] = _
      rw [ih _ hr]
      by_cases hji : j = i
      · subst hji
        have hjr : j ∉ rest := hi
        by_cases hlen : j < ws.length
        · simp [hjr, hlen, getD_set_eq _ _ _ _ hlen, List.length_set]
        · rw [set_oob _ _ _ (by omega)]
          simp [hjr, hlen]
      · have h1 : (ws.set i (matSub (ws.getD i [])
            (smulMat lr (matTMul (L.getD i []) (D.getD i []))))).getD j [] = ws.getD j [] :=
          getD_set_ne _ _ _ _ _ (fun h => hji h.symm)
        simp only [List.length_set, h1, List.mem_cons]
        by_cases hjr : j ∈ rest <;> simp [hjr, hji]

theorem backwardDeltas_length (nm : NumModel) (activation : String) (ws layersL : List Mat)
    (idxs : List ℕ) (ds : List Mat) :
    (backwardDeltas nm activation ws layersL idxs ds).length = ds.length := by
  induction idxs generalizing ds with
  | nil => rfl
  | cons i rest ih =>
      show (backwardDeltas nm activation ws layersL rest (ds.set (i - 1)
        (hadamard (matMulBT (ds.getD i []) (ws.getD i []))
          (matMap (dactF nm activation) (layersL.getD i []))))).length = ds.length
      rw [ih, List.length_set]

/-- Delta slots whose index is never written by the loop keep their value. -/
theorem backwardDeltas_getD_untouched (nm : NumModel) (activation : String)
    (ws layersL : List Mat) (idxs : List ℕ) (ds : List Mat) (j : ℕ)
    (h : ∀ i ∈ idxs, i - 1 ≠ j) :
    (backwardDeltas nm activation ws layersL idxs ds).getD j [] = ds.getD j [] := by
  induction idxs generalizing ds with
  | nil => rfl
  | cons i rest ih =>
      show (backwardDeltas nm activation ws layersL rest (ds.set (i - 1) _)).getD j [] = _
      rw [ih _ (fun i hi => h i (List.mem_cons_of_mem _ hi)),
        getD_set_ne _ _ _ _ _ (h i (List.mem_cons_self i rest))]

theorem forwardHidden_length (nm : NumModel) (activation : String) (ws : List Mat)
    (bs : List (List ℚ)) (idxs : List ℕ) (layers : List Mat) :
    (forwardHidden nm activation ws bs idxs layers).length = layers.length := by
  induction idxs generalizing layers with
  | nil => rfl
  | cons i rest ih =>
      show (forwardHidden nm activation ws bs rest (layers.set i (matMap (actF nm activation)
        (matAddVec (matMul (layers.getD (i - 1) []) (ws.getD (i - 1) []))
          (bs.getD (i - 1) []))))).length = layers.length
      rw [ih, List.length_set]

/-- Layer slots whose index is not in the processed list keep their value. -/
theorem forwardHidden_getD_untouched (nm : NumModel) (activation : String) (ws : List Mat)
    (bs : List (List ℚ)) (idxs : List ℕ) (layers : List Mat) (j : ℕ) (h : j ∉ idxs) :
    (forwardHidden nm activation ws bs idxs layers).getD j [] = layers.getD j [] := by
  induction idxs generalizing layers with
  | nil => rfl
  | cons i rest ih =>
      show (forwardHidden nm activation ws bs rest (layers.set i _)).getD j [] = _
      rw [ih _ (fun hj => h (List.mem_cons_of_mem _ hj)),
        getD_set_ne _ _ _ _ _ (fun hij => h (List.mem_cons.mpr (Or.inl hij.symm)))]

/-- C9: when the sample counts of `X` and `y` differ, `fit` raises the
shape-mismatch `ValueError` immediately: the result carries the error
message, and both the engine state (in particular its parameter store) and
the process random state are returned exactly as they were — the check
precedes `seed(1)` and every allocation. -/
theorem C9_fit_shape_mismatch (nm : NumModel) (rng : RngModel) (s : MLPState) (X : Mat)
    (y : List ℕ) (max_epochs : ℕ) (shuffle_data : Bool) (p : ProcState)
    (h : y.length ≠ X.length) :
    fit nm rng s X y max_epochs shuffle_data p = (some "Shapes of X and y dont fit!", s, p) := by
  unfold fit
  simp [h]

/-- Witness for C9: a fresh engine, `X` with 2 rows and `y` with 1 entry. -/
theorem C9_fit_shape_mismatch_witness :
    ([0].length ≠ ([[0], [0]] : Mat).length) ∧
      fit nmOne rngId
          (initUnchecked 1 1 [1] 1 "sigmoid" "softmax" "cross_entropy" (1/100) (1/10000) (9/10) 1)
          [[0], [0]] [0] 3 true ⟨0, 0⟩ =
        (some "Shapes of X and y dont fit!",
          initUnchecked 1 1 [1] 1 "sigmoid" "softmax" "cross_entropy" (1/100) (1/10000) (9/10) 1,
          ⟨0, 0⟩) :=
  ⟨by decide, C9_fit_shape_mismatch nmOne rngId _ _ _ 3 true ⟨0, 0⟩ (by decide)⟩

/-- C10: engine construction fails if and only if the activation string is
neither `sigmoid` nor `tanh`, or the output-layer string is not `softmax`.
On failure the model returns only the error — no parameter store or buffer
lists come into existence (in the source they are assigned after both
checks). -/
theorem C10_init_error_iff (input_size output_size : ℕ) (hidden_layer_size : List ℕ)
    (batch_size : ℕ) (activation output_layer loss : String)
    (lr reg_lambda momentum : ℚ) (verbose : ℕ) :
    (∃ e, init input_size output_size hidden_layer_size batch_size activation output_layer
        loss lr reg_lambda momentum verbose = Except.error e) ↔
      ((activation ≠ "sigmoid" ∧ activation ≠ "tanh") ∨ output_layer ≠ "softmax") := by
  unfold init
  by_cases h1 : activation ≠ "sigmoid" ∧ activation ≠ "tanh" <;>
    by_cases h2 : output_layer ≠ "softmax" <;> simp [h1, h2]

theorem mem_range_reverse (i n : ℕ) : i ∈ (List.range n).reverse ↔ i < n := by
  rw [List.mem_reverse, List.mem_range]

theorem nodup_range_reverse (n : ℕ) : (List.range n).reverse.Nodup :=
  List.nodup_reverse.mpr (List.nodup_range n)

/-- C2: on any state whose parameter store and buffers have the post-`fit`
list lengths, `backward` leaves every bias vector untouched and replaces
each weight matrix `i ≤ n_layers` by exactly
`weights[i] - lr * (layers[i]ᵀ · deltas[i])`, where `layers[i]` is the
activation buffer `forward` left behind and `deltas[i]` is the delta the
same `backward` call computed. The equality is exact: no momentum term and
no L2-regularization term enters the update. -/
theorem C2_backward_weight_update (nm : NumModel) (s : MLPState) (X : Mat) (y : List ℕ)
    (hw : s.weights.length = s.n_layers + 1) (hl : s.layers.length = s.n_layers + 2) :
    (∀ i ≤ s.n_layers,
      (backward nm s X y).weights.getD i [] =
        matSub (s.weights.getD i [])
          (smulMat s.lr (matTMul (s.layers.getD i [])
            ((backward nm s X y).deltas.getD i [])))) ∧
    (backward nm s X y).bias = s.bias := by
  by_cases hloss : s.loss = "cross_entropy"
  · constructor
    · intro i hi
      have hset : (s.layers.set (s.layers.length - 1)
          (subOneAtLabels (s.layers.getD (s.layers.length - 1) []) y X.length)).getD i [] =
          s.layers.getD i [] := getD_set_ne _ _ _ _ _ (by omega)
      simp only [backward, hloss, if_true, ite_true, eq_self_iff_true]
      rw [backwardWeights_getD _ _ _ _ _ (nodup_range_reverse _) i,
        if_pos ⟨(mem_range_reverse _ _).mpr (by omega), by omega⟩, hset]
    · simp [backward, hloss]
  · constructor
    · intro i hi
      simp only [backward, hloss, if_false, ite_false]
      rw [backwardWeights_getD _ _ _ _ _ (nodup_range_reverse _) i,
        if_pos ⟨(mem_range_reverse _ _).mpr (by omega), by omega⟩]
    · simp [backward, hloss]

/-- A small trained engine used by the C2 witness: one input, one hidden
unit, two outputs, after one parameter-allocating `fit` call and one
`forward` call on the batch `[[0]]`. -/
def c2State : MLPState :=
  (forward nmOne
    ((fit nmOne rngId
      (initUnchecked 1 2 [1] 1 "sigmoid" "softmax" "cross_entropy" (1/100) (1/10000) (9/10) 1)
      [[0]] [0] 0 false ⟨0, 0⟩).2.1) [[0]]).2

/-- Witness for C2 at a concrete engine and batch. -/
theorem C2_backward_weight_update_witness :
    (c2State.weights.length = c2State.n_layers + 1 ∧
      c2State.layers.length = c2State.n_layers + 2) ∧
    ((∀ i ≤ c2State.n_layers,
      (backward nmOne c2State [[0]] [0]).weights.getD i [] =
        matSub (c2State.weights.getD i [])
          (smulMat c2State.lr (matTMul (c2State.layers.getD i [])
            ((backward nmOne c2State [[0]] [0]).deltas.getD i [])))) ∧
    (backward nmOne c2State [[0]] [0]).bias = c2State.bias) :=
  ⟨⟨by decide, by decide⟩,
    C2_backward_weight_update nmOne c2State [[0]] [0] (by decide) (by decide)⟩

/-- C5 (amended): under the cross-entropy loss, the output delta is *not* a
copy: `self.deltas[-1] = self.layers[-1]` aliases the output activation
buffer and the in-place `-= 1` mutates it, so after `backward` both the
last delta slot and the last activation slot hold the forward output with 1
subtracted at each sample's true-label entry. -/
theorem C5_output_delta_aliases_buffer (nm : NumModel) (s : MLPState) (X : Mat) (y : List ℕ)
    (hloss : s.loss = "cross_entropy")
    (hd : s.deltas.length = s.n_layers + 1) (hl : s.layers.length = s.n_layers + 2) :
    (backward nm s X y).deltas.getD ((backward nm s X y).deltas.length - 1) [] =
      subOneAtLabels (s.layers.getD (s.layers.length - 1) []) y X.length ∧
    (backward nm s X y).layers.getD ((backward nm s X y).layers.length - 1) [] =
      subOneAtLabels (s.layers.getD (s.layers.length - 1) []) y X.length := by
  simp only [backward, hloss, if_true, ite_true, eq_self_iff_true]
  constructor
  · rw [backwardDeltas_length, List.length_set,
      backwardDeltas_getD_untouched _ _ _ _ _ _ _ (by
        intro i hi
        rw [List.mem_reverse] at hi
        have := List.mem_range'_1.mp hi
        omega),
      hd, getD_set_eq _ _ _ _ (by omega)]
  · rw [List.length_set, getD_set_eq _ _ _ _ (by omega)]

/-- A freshly allocated engine (one input, one hidden unit, one output)
used by the C5 counterexample and witness. -/
def c5Fit : MLPState :=
  (fit nmOne rngId
    (initUnchecked 1 1 [1] 1 "sigmoid" "softmax" "cross_entropy" (1/100) (1/10000) (9/10) 1)
    [[0]] [0] 0 false ⟨0, 0⟩).2.1

/-- Counterexample to C5 as stated: after running `forward` then `backward`
on the same batch, the stored output activation buffer no longer equals the
forward pass's output (here `[[0]]` instead of `[[1]]`). -/
theorem C5_counterexample :
    (backward nmOne (forward nmOne c5Fit [[0]]).2 [[0]] [0]).layers.getD
        ((backward nmOne (forward nmOne c5Fit [[0]]).2 [[0]] [0]).layers.length - 1) [] ≠
      (forward nmOne c5Fit [[0]]).1 := by decide

/-- Witness for the amended C5 at a concrete engine and batch. -/
theorem C5_output_delta_aliases_buffer_witness :
    ((forward nmOne c5Fit [[0]]).2.loss = "cross_entropy" ∧
      (forward nmOne c5Fit [[0]]).2.deltas.length = (forward nmOne c5Fit [[0]]).2.n_layers + 1 ∧
      (forward nmOne c5Fit [[0]]).2.layers.length = (forward nmOne c5Fit [[0]]).2.n_layers + 2) ∧
    ((backward nmOne (forward nmOne c5Fit [[0]]).2 [[0]] [0]).deltas.getD
        ((backward nmOne (forward nmOne c5Fit [[0]]).2 [[0]] [0]).deltas.length - 1) [] =
      subOneAtLabels ((forward nmOne c5Fit [[0]]).2.layers.getD
        ((forward nmOne c5Fit [[0]]).2.layers.length - 1) []) [0] ([[0]] : Mat).length ∧
    (backward nmOne (forward nmOne c5Fit [[0]]).2 [[0]] [0]).layers.getD
        ((backward nmOne (forward nmOne c5Fit [[0]]).2 [[0]] [0]).layers.length - 1) [] =
      subOneAtLabels ((forward nmOne c5Fit [[0]]).2.layers.getD
        ((forward nmOne c5Fit [[0]]).2.layers.length - 1) []) [0] ([[0]] : Mat).length) :=
  ⟨⟨by decide, by decide, by decide⟩,
    C5_output_delta_aliases_buffer nmOne (forward nmOne c5Fit [[0]]).2 [[0]] [0]
      (by decide) (by decide) (by decide)⟩

theorem forward_state_eq (nm : NumModel) (s : MLPState) (X : Mat) :
    (forward nm s X).2.weights = s.weights ∧ (forward nm s X).2.bias = s.bias ∧
    (forward nm s X).2.deltas = s.deltas ∧ (forward nm s X).2.n_layers = s.n_layers ∧
    (forward nm s X).2.hidden_layer_size = s.hidden_layer_size ∧
    (forward nm s X).2.batch_size = s.batch_size ∧ (forward nm s X).2.verbose = s.verbose ∧
    (forward nm s X).2.loss = s.loss ∧ (forward nm s X).2.activation = s.activation ∧
    (forward nm s X).2.lr = s.lr ∧ (forward nm s X).2.input_size = s.input_size ∧
    (forward nm s X).2.output_size = s.output_size :=
  ⟨rfl, rfl, rfl, rfl, rfl, rfl, rfl, rfl, rfl, rfl, rfl, rfl⟩

theorem backward_fields_eq (nm : NumModel) (s : MLPState) (X : Mat) (y : List ℕ) :
    (backward nm s X y).bias = s.bias ∧ (backward nm s X y).n_layers = s.n_layers ∧
    (backward nm s X y).hidden_layer_size = s.hidden_layer_size ∧
    (backward nm s X y).batch_size = s.batch_size ∧ (backward nm s X y).verbose = s.verbose ∧
    (backward nm s X y).loss = s.loss ∧ (backward nm s X y).activation = s.activation ∧
    (backward nm s X y).lr = s.lr ∧ (backward nm s X y).input_size = s.input_size ∧
    (backward nm s X y).output_size = s.output_size := by
  by_cases hloss : s.loss = "cross_entropy" <;>
    exact ⟨by simp [backward, hloss], by simp [backward, hloss], by simp [backward, hloss],
      by simp [backward, hloss], by simp [backward, hloss], by simp [backward, hloss],
      by simp [backward, hloss], by simp [backward, hloss], by simp [backward, hloss],
      by simp [backward, hloss]⟩

theorem backward_weights_length_eq (nm : NumModel) (s : MLPState) (X : Mat) (y : List ℕ) :
    (backward nm s X y).weights.length = s.weights.length := by
  by_cases hloss : s.loss = "cross_entropy" <;>
    simp [backward, hloss, backwardWeights_length]

/-- `backward` never writes a weight slot above `n_layers`. -/
theorem backward_weights_getD_high (nm : NumModel) (s : MLPState) (X : Mat) (y : List ℕ)
    (j : ℕ) (hj : s.n_layers < j) :
    (backward nm s X y).weights.getD j [] = s.weights.getD j [] := by
  by_cases hloss : s.loss = "cross_entropy" <;>
  · simp only [backward, hloss, if_true, ite_true, if_false, ite_false, eq_self_iff_true]
    rw [backwardWeights_getD _ _ _ _ _ (nodup_range_reverse _) j, if_neg]
    rintro ⟨hm, -⟩
    exact absurd ((mem_range_reverse _ _).mp hm) (by omega)

theorem runBatches_weights_length (nm : NumModel) (starts : List ℕ) (s : MLPState)
    (X : Mat) (y : List ℕ) :
    (runBatches nm starts s X y).weights.length = s.weights.length := by
  induction starts generalizing s with
  | nil => rfl
  | cons b rest ih =>
      show (runBatches nm rest (backward nm (forward nm s _).2 _ _) X y).weights.length = _
      rw [ih, backward_weights_length_eq]
      rfl

theorem runBatches_fields_eq (nm : NumModel) (starts : List ℕ) (s : MLPState)
    (X : Mat) (y : List ℕ) :
    (runBatches nm starts s X y).bias = s.bias ∧
    (runBatches nm starts s X y).n_layers = s.n_layers ∧
    (runBatches nm starts s X y).hidden_layer_size = s.hidden_layer_size ∧
    (runBatches nm starts s X y).batch_size = s.batch_size ∧
    (runBatches nm starts s X y).verbose = s.verbose := by
  induction starts generalizing s with
  | nil => exact ⟨rfl, rfl, rfl, rfl, rfl⟩
  | cons b rest ih =>
      have hb := backward_fields_eq nm (forward nm s ((X.drop b).take s.batch_size)).2
        ((X.drop b).take s.batch_size) ((y.drop b).take s.batch_size)
      have := ih (backward nm (forward nm s ((X.drop b).take s.batch_size)).2
        ((X.drop b).take s.batch_size) ((y.drop b).take s.batch_size))
      exact ⟨this.1.trans hb.1, this.2.1.trans hb.2.1, this.2.2.1.trans hb.2.2.1,
        this.2.2.2.1.trans hb.2.2.2.1, this.2.2.2.2.trans hb.2.2.2.2.1⟩

theorem runBatches_weights_getD_high (nm : NumModel) (starts : List ℕ) (s : MLPState)
    (X : Mat) (y : List ℕ) (j : ℕ) (hj : s.n_layers < j) :
    (runBatches nm starts s X y).weights.getD j [] = s.weights.getD j [] := by
  induction starts generalizing s with
  | nil => rfl
  | cons b rest ih =>
      have hs1 : (forward nm s ((X.drop b).take s.batch_size)).2.n_layers = s.n_layers := rfl
      show (runBatches nm rest (backward nm (forward nm s _).2 _ _) X y).weights.getD j [] = _
      rw [ih _ (by rw [(backward_fields_eq nm _ _ _).2.1, hs1]; exact hj),
        backward_weights_getD_high _ _ _ _ _ (by rw [hs1]; exact hj)]
      rfl

theorem epochLoop_weights_length (nm : NumModel) (rng : RngModel) (sh : Bool) (n : ℕ) :
    ∀ (fuel i : ℕ) (s : MLPState) (X : Mat) (y : List ℕ) (k : ℕ),
      (epochLoop nm rng sh n fuel i s X y k).1.weights.length = s.weights.length
  | 0, _, _, _, _, _ => rfl
  | fuel + 1, i, s, X, y, k => by
      by_cases hlog : i % s.verbose = 0 <;>
      · simp only [epochLoop, hlog, if_true, if_false, ite_true, ite_false]
        rw [epochLoop_weights_length nm rng sh n fuel (i + 1)]
        exact runBatches_weights_length nm (batchStarts n s.batch_size) s _ _

theorem epochLoop_bias_eq (nm : NumModel) (rng : RngModel) (sh : Bool) (n : ℕ) :
    ∀ (fuel i : ℕ) (s : MLPState) (X : Mat) (y : List ℕ) (k : ℕ),
      (epochLoop nm rng sh n fuel i s X y k).1.bias = s.bias
  | 0, _, _, _, _, _ => rfl
  | fuel + 1, i, s, X, y, k => by
      by_cases hlog : i % s.verbose = 0 <;>
      · simp only [epochLoop, hlog, if_true, if_false, ite_true, ite_false]
        rw [epochLoop_bias_eq nm rng sh n fuel (i + 1)]
        exact (runBatches_fields_eq nm (batchStarts n s.batch_size) s _ _).1

theorem epochLoop_n_layers_eq (nm : NumModel) (rng : RngModel) (sh : Bool) (n : ℕ) :
    ∀ (fuel i : ℕ) (s : MLPState) (X : Mat) (y : List ℕ) (k : ℕ),
      (epochLoop nm rng sh n fuel i s X y k).1.n_layers = s.n_layers
  | 0, _, _, _, _, _ => rfl
  | fuel + 1, i, s, X, y, k => by
      by_cases hlog : i % s.verbose = 0 <;>
      · simp only [epochLoop, hlog, if_true, if_false, ite_true, ite_false]
        rw [epochLoop_n_layers_eq nm rng sh n fuel (i + 1)]
        exact (runBatches_fields_eq nm (batchStarts n s.batch_size) s _ _).2.1

/-- The epoch loop never writes a weight slot above the entry state's
`n_layers`. -/
theorem epochLoop_weights_getD_high (nm : NumModel) (rng : RngModel) (sh : Bool) (n : ℕ) :
    ∀ (fuel i : ℕ) (s : MLPState) (X : Mat) (y : List ℕ) (k : ℕ) (j : ℕ),
      s.n_layers < j →
      (epochLoop nm rng sh n fuel i s X y k).1.weights.getD j [] = s.weights.getD j []
  | 0, _, _, _, _, _, _, _ => rfl
  | fuel + 1, i, s, X, y, k, j, hj => by
      by_cases hlog : i % s.verbose = 0 <;>
      · simp only [epochLoop, hlog, if_true, if_false, ite_true, ite_false]
        rw [epochLoop_weights_getD_high nm rng sh n fuel (i + 1) _ _ _ _ j
          (by
            show (runBatches nm (batchStarts n s.batch_size) s _ _).n_layers < j
            rw [(runBatches_fields_eq nm (batchStarts n s.batch_size) s _ _).2.1]
            exact hj)]
        exact runBatches_weights_getD_high nm (batchStarts n s.batch_size) s _ _ j hj

theorem allocHidden_spec (nm : NumModel) (rng : RngModel) (act : String) (hs : List ℕ) :
    ∀ (idxs : List ℕ) (ws : List Mat) (bs : List (List ℚ)) (k : ℕ),
      (allocHidden nm rng act hs idxs (ws, bs, k)).1.length = ws.length + idxs.length ∧
      (allocHidden nm rng act hs idxs (ws, bs, k)).2.1.length = bs.length + idxs.length ∧
      (∀ j, j < ws.length →
        (allocHidden nm rng act hs idxs (ws, bs, k)).1.getD j [] = ws.getD j []) ∧
      (∀ j, j < bs.length →
        (allocHidden nm rng act hs idxs (ws, bs, k)).2.1.getD j [] = bs.getD j [])
  | [], ws, bs, k => ⟨rfl, rfl, fun _ _ => rfl, fun _ _ => rfl⟩
  | i :: rest, ws, bs, k => by
      obtain ⟨h1, h2, h3, h4⟩ := allocHidden_spec nm rng act hs rest
        (ws ++ [drawMat rng (-get_weight_bound nm act (hs.getD (i - 1) 0) (hs.getD i 0))
          (get_weight_bound nm act (hs.getD (i - 1) 0) (hs.getD i 0))
          (hs.getD (i - 1) 0) (hs.getD i 0) k])
        (bs ++ [drawVec rng (-get_weight_bound nm act (hs.getD (i - 1) 0) (hs.getD i 0))
          (get_weight_bound nm act (hs.getD (i - 1) 0) (hs.getD i 0))
          (hs.getD i 0) (k + hs.getD (i - 1) 0 * hs.getD i 0)])
        (k + hs.getD (i - 1) 0 * hs.getD i 0 + hs.getD i 0)
      have hdef : allocHidden nm rng act hs (i :: rest) (ws, bs, k) =
          allocHidden nm rng act hs rest
            (ws ++ [drawMat rng (-get_weight_bound nm act (hs.getD (i - 1) 0) (hs.getD i 0))
              (get_weight_bound nm act (hs.getD (i - 1) 0) (hs.getD i 0))
              (hs.getD (i - 1) 0) (hs.getD i 0) k],
            bs ++ [drawVec rng (-get_weight_bound nm act (hs.getD (i - 1) 0) (hs.getD i 0))
              (get_weight_bound nm act (hs.getD (i - 1) 0) (hs.getD i 0))
              (hs.getD i 0) (k + hs.getD (i - 1) 0 * hs.getD i 0)],
            k + hs.getD (i - 1) 0 * hs.getD i 0 + hs.getD i 0) := rfl
      rw [hdef]
      refine ⟨?_, ?_, ?_, ?_⟩
      · rw [h1]; simp; omega
      · rw [h2]; simp; omega
      · intro j hj
        rw [h3 j (by simp; omega), List.getD_append _ _ _ _ hj]
      · intro j hj
        rw [h4 j (by simp; omega), List.getD_append _ _ _ _ hj]

theorem allocParams_spec (nm : NumModel) (rng : RngModel) (s : MLPState) (nf k : ℕ)
    (hhid : s.hidden_layer_size ≠ []) :
    (allocParams nm rng s nf k).1.weights.length =
      s.weights.length + s.hidden_layer_size.length + 1 ∧
    (allocParams nm rng s nf k).1.bias.length =
      s.bias.length + s.hidden_layer_size.length + 1 ∧
    (∀ j, j < s.weights.length →
      (allocParams nm rng s nf k).1.weights.getD j [] = s.weights.getD j []) := by
  have hlen : 1 ≤ s.hidden_layer_size.length := by
    cases hh : s.hidden_layer_size with
    | nil => exact absurd hh hhid
    | cons a l => simp [hh]
  obtain ⟨h1, h2, h3, h4⟩ := allocHidden_spec nm rng s.activation s.hidden_layer_size
    (List.range' 1 (s.hidden_layer_size.length - 1))
    (s.weights ++ [drawMat rng
      (-get_weight_bound nm s.activation nf (s.hidden_layer_size.getD 0 0))
      (get_weight_bound nm s.activation nf (s.hidden_layer_size.getD 0 0))
      nf (s.hidden_layer_size.getD 0 0) k])
    (s.bias ++ [drawVec rng
      (-get_weight_bound nm s.activation nf (s.hidden_layer_size.getD 0 0))
      (get_weight_bound nm s.activation nf (s.hidden_layer_size.getD 0 0))
      (s.hidden_layer_size.getD 0 0) (k + nf * s.hidden_layer_size.getD 0 0)])
    (k + nf * s.hidden_layer_size.getD 0 0 + s.hidden_layer_size.getD 0 0)
  refine ⟨?_, ?_, ?_⟩
  · show (_ ++ [_]).length = _
    rw [List.length_append, h1]
    simp [List.length_range']
    omega
  · show (_ ++ [_]).length = _
    rw [List.length_append, h2]
    simp [List.length_range']
    omega
  · intro j hj
    show (_ ++ [_]).getD j [] = _
    rw [List.getD_append _ _ _ _ (by rw [h1]; simp; omega),
      h3 j (by simp; omega), List.getD_append _ _ _ _ hj]

/-- C4 (amended): parameters are appended on *every* successful `fit` call,
not only the first — the parameter-generation block has no first-call
guard. Each call appends `len(hidden_layer_size) + 1` fresh weight matrices
and bias vectors to the store, while the training loop only ever writes
weight slots `0 … n_layers`; entries above `n_layers` that existed before
the call (the parameters appended by earlier calls, beyond the ones the
loop trains) are preserved verbatim. -/
theorem C4_fit_appends_params (nm : NumModel) (rng : RngModel) (s : MLPState) (X : Mat)
    (y : List ℕ) (max_epochs : ℕ) (shuffle_data : Bool) (p : ProcState)
    (hlen : y.length = X.length) (hhid : s.hidden_layer_size ≠ []) :
    (fit nm rng s X y max_epochs shuffle_data p).2.1.weights.length =
      s.weights.length + s.hidden_layer_size.length + 1 ∧
    (fit nm rng s X y max_epochs shuffle_data p).2.1.bias.length =
      s.bias.length + s.hidden_layer_size.length + 1 ∧
    (∀ j, s.n_layers < j → j < s.weights.length →
      (fit nm rng s X y max_epochs shuffle_data p).2.1.weights.getD j [] =
        s.weights.getD j []) := by
  obtain ⟨ha1, ha2, ha3⟩ := allocParams_spec nm rng s X.ncols p.npk hhid
  have hcond : ¬ y.length ≠ X.length := by simpa using hlen
  refine ⟨?_, ?_, ?_⟩
  · simp only [fit, hcond, if_false, ite_false]
    rw [epochLoop_weights_length]
    exact ha1
  · simp only [fit, hcond, if_false, ite_false]
    rw [epochLoop_bias_eq]
    exact ha2
  · intro j hj hjlen
    simp only [fit, hcond, if_false, ite_false]
    rw [epochLoop_weights_getD_high _ _ _ _ _ _ _ _ _ _ j
      (show (allocBuffers (allocParams nm rng s X.ncols p.npk).1).n_layers < j from hj)]
    exact ha3 j hjlen

/-- The engine after one parameter-allocating `fit` call, used by the C4
counterexample and witness. -/
def c4Fit1 : MLPState :=
  (fit nmOne rngId
    (initUnchecked 1 1 [1] 1 "sigmoid" "softmax" "cross_entropy" (1/100) (1/10000) (9/10) 1)
    [[0]] [0] 0 false ⟨0, 0⟩).2.1

/-- Counterexample to C4 as stated: after a second `fit` call on the same
instance, the store holds 4 weight matrices, not
`len(hidden_layer_size) + 1 = 2`. -/
theorem C4_counterexample :
    (fit nmOne rngId c4Fit1 [[0]] [0] 0 false ⟨1, 4⟩).2.1.weights.length ≠
      c4Fit1.hidden_layer_size.length + 1 := by decide

/-- Witness for the amended C4, at the second `fit` call on a concrete
engine. -/
theorem C4_fit_appends_params_witness :
    (([0] : List ℕ).length = ([[0]] : Mat).length ∧ c4Fit1.hidden_layer_size ≠ []) ∧
    ((fit nmOne rngId c4Fit1 [[0]] [0] 0 false ⟨1, 4⟩).2.1.weights.length =
      c4Fit1.weights.length + c4Fit1.hidden_layer_size.length + 1 ∧
    (fit nmOne rngId c4Fit1 [[0]] [0] 0 false ⟨1, 4⟩).2.1.bias.length =
      c4Fit1.bias.length + c4Fit1.hidden_layer_size.length + 1 ∧
    (∀ j, c4Fit1.n_layers < j → j < c4Fit1.weights.length →
      (fit nmOne rngId c4Fit1 [[0]] [0] 0 false ⟨1, 4⟩).2.1.weights.getD j [] =
        c4Fit1.weights.getD j [])) :=
  ⟨⟨by decide, by decide⟩,
    C4_fit_appends_params nmOne rngId c4Fit1 [[0]] [0] 0 false ⟨1, 4⟩ (by decide) (by decide)⟩

/-- The fresh configuration used by the C1 failing-input evaluation. -/
def c1Cfg : MLPState :=
  initUnchecked 1 1 [1] 1 "sigmoid" "softmax" "cross_entropy" (1/100) (1/10000) (9/10) 1

/-- C1 evaluated at the failing input: two `fit` invocations with identical
configuration and data, run one after the other in the same process. Both
calls do set the fixed seed (`seed(1)` — the Python generator field ends up
1 both times), yet the final weight stores differ bit for bit: the weights
are drawn from the numpy stream, whose position the first call advanced and
`seed(1)` never resets, because `random.seed` seeds a different generator
than `np.random.uniform` consumes. -/
theorem C1_fit_not_deterministic_across_runs :
    ((fit nmOne rngId c1Cfg [[0]] [0] 0 false ⟨0, 0⟩).2.2.pyRng = 1 ∧
      (fit nmOne rngId c1Cfg [[0]] [0] 0 false
        (fit nmOne rngId c1Cfg [[0]] [0] 0 false ⟨0, 0⟩).2.2).2.2.pyRng = 1) ∧
    (fit nmOne rngId c1Cfg [[0]] [0] 0 false ⟨0, 0⟩).2.1.weights ≠
      (fit nmOne rngId c1Cfg [[0]] [0] 0 false
        (fit nmOne rngId c1Cfg [[0]] [0] 0 false ⟨0, 0⟩).2.2).2.1.weights := by
  exact ⟨⟨by decide, by decide⟩, by decide⟩

theorem sum_map_add_q {α : Type} (l : List α) (f g : α → ℚ) :
    (l.map (fun x => f x + g x)).sum = (l.map f).sum + (l.map g).sum := by
  induction l with
  | nil => simp
  | cons a t ih => simp [ih]; ring

theorem sum_map_mul_left_q {α : Type} (l : List α) (c : ℚ) (f : α → ℚ) :
    (l.map (fun x => c * f x)).sum = c * (l.map f).sum := by
  induction l with
  | nil => simp
  | cons a t ih => simp [ih]; ring

theorem sum_map_range_getD (r : List ℚ) (n : ℕ) (h : r.length = n) :
    ((List.range n).map (fun j => r.getD j 0)).sum = r.sum := by
  induction r generalizing n with
  | nil => subst h; simp
  | cons x xs ih =>
      cases n with
      | zero => simp at h
      | succ m =>
          have hm : xs.length = m := by simpa using h
          rw [List.range_succ_eq_map]
          simp only [List.map_cons, List.map_map, List.sum_cons, List.getD_cons_zero]
          have hc : (List.range m).map ((fun j => (x :: xs).getD j 0) ∘ Nat.succ) =
              (List.range m).map (fun j => xs.getD j 0) := rfl
          rw [hc, ih m hm]

theorem map_getD_range {α β : Type} (d : α) (f : α → β) (l : List α) (n : ℕ)
    (h : l.length = n) :
    (List.range n).map (fun i => f (l.getD i d)) = l.map f := by
  induction l generalizing n with
  | nil => subst h; simp
  | cons x xs ih =>
      cases n with
      | zero => simp at h
      | succ m =>
          have hm : xs.length = m := by simpa using h
          rw [List.range_succ_eq_map]
          simp only [List.map_cons, List.map_map, List.getD_cons_zero]
          have hc : (List.range m).map ((fun i => f ((x :: xs).getD i d)) ∘ Nat.succ) =
              (List.range m).map (fun i => f (xs.getD i d)) := rfl
          rw [hc, ih m hm]

/-- Summing `np.dot(v, M)` over the column index equals summing
`v[i] * (row i).sum` over the row index (exchange of summation order). -/
theorem sum_cols_dot (v : List ℚ) (M : Mat) (n : ℕ) (hM : ∀ r ∈ M, r.length = n)
    (hv : v.length = M.length) :
    ((List.range n).map (fun j => dotQ v (colQ M j))).sum =
      (List.zipWith (fun a row => a * row.sum) v M).sum := by
  induction M generalizing v with
  | nil =>
      have hvnil : v = [] := List.eq_nil_of_length_eq_zero hv
      subst hvnil
      simp [dotQ, colQ]
  | cons r M2 ih =>
      cases v with
      | nil => simp at hv
      | cons a v2 =>
          have hr : r.length = n := hM r (List.mem_cons_self _ _)
          have hM2 : ∀ ro ∈ M2, ro.length = n := fun ro hro => hM ro (List.mem_cons_of_mem _ hro)
          have hv2 : v2.length = M2.length := by simpa using hv
          have hpt : (List.range n).map (fun j => dotQ (a :: v2) (colQ (r :: M2) j)) =
              (List.range n).map (fun j => a * r.getD j 0 + dotQ v2 (colQ M2 j)) := rfl
          rw [hpt, sum_map_add_q, sum_map_mul_left_q, sum_map_range_getD r n hr, ih v2 hM2 hv2]
          simp

theorem sum_zipWith_sub {α β : Type} (f g : α → β → ℚ) : ∀ (l1 : List α) (l2 : List β),
    (List.zipWith (fun x y => f x y - g x y) l1 l2).sum =
      (List.zipWith f l1 l2).sum - (List.zipWith g l1 l2).sum
  | [], _ => by simp
  | _ :: _, [] => by simp
  | a :: t1, b :: t2 => by
      simp only [List.zipWith_cons_cons, List.sum_cons, sum_zipWith_sub f g t1 t2]
      ring

theorem sum_zipWith_sub_of_length : ∀ (t1 t2 : List ℚ), t1.length = t2.length →
    (List.zipWith (· - ·) t1 t2).sum = t1.sum - t2.sum
  | [], [], _ => by simp
  | [], _ :: _, h => by simp at h
  | _ :: _, [], h => by simp at h
  | a :: t1, b :: t2, h => by
      simp only [List.zipWith_cons_cons, List.sum_cons,
        sum_zipWith_sub_of_length t1 t2 (by simpa using h)]
      ring

theorem matMap_ncols (f : ℚ → ℚ) (M : Mat) : (matMap f M).ncols = M.ncols := by
  cases M <;> simp [matMap, Mat.ncols]

/-- The loss formula exactly as the specification words it: the sum over
samples of `-y_i * log(a_i)` minus `(1 - y_i) * log(1 - a_i)` (applied to
the raw integer label and the sample's softmax row), plus
`0.5 * reg_lambda * sum(weight^2)` summed over every weight matrix in the
store, all divided by the sample count. -/
def specLossFormula (nm : NumModel) (s : MLPState) (X : Mat) (y : List ℕ) : ℚ :=
  1 / (X.length : ℚ) *
    ((List.zipWith (fun (lbl : ℕ) (row : List ℚ) =>
        -(lbl : ℚ) * (row.map nm.log).sum
          - (1 - (lbl : ℚ)) * ((row.map (fun p => 1 - p)).map nm.log).sum)
      y (forward nm s X).1).sum
    + (s.weights.map (fun W => 1 / 2 * s.reg_lambda * sumMat (matMap (fun w => w ^ 2) W))).sum)

/-- C8: `compute_loss` returns the spec formula — the binary-cross-entropy
style matrix expression on raw integer labels and the softmax output, plus
the L2 penalty over every weight matrix, divided by the sample count. The
hypotheses say the forward output has uniform row lengths, the label vector
is aligned with it, and the store holds exactly the `n_layers + 1` matrices
the regularization loop visits. -/
theorem C8_compute_loss_formula (nm : NumModel) (s : MLPState) (X : Mat) (y : List ℕ)
    (hrow : ∀ r ∈ (forward nm s X).1, r.length = Mat.ncols (forward nm s X).1)
    (hy : y.length = (forward nm s X).1.length)
    (hw : s.weights.length = s.n_layers + 1) :
    (compute_loss nm s X y).1 = specLossFormula nm s X y := by
  simp only [compute_loss, specLossFormula, vecMatQ]
  congr 1
  have ha := hrow
  set a := (forward nm s X).1 with hadef
  have h1 : ((List.range (matMap nm.log a).ncols).map
      (fun j => dotQ ((y.map (fun v : ℕ => (v : ℚ))).map (fun v => -v))
        (colQ (matMap nm.log a) j))).sum =
      (List.zipWith (fun (lbl : ℕ) (row : List ℚ) =>
        -(lbl : ℚ) * (row.map nm.log).sum) y a).sum := by
    rw [sum_cols_dot _ _ _ (by
        intro r hr
        rw [matMap_ncols]
        obtain ⟨ro, hro, rfl⟩ := List.mem_map.mp hr
        simpa using ha ro hro)
      (by simp only [List.length_map, matMap]; exact hy)]
    rw [List.map_map, matMap, List.zipWith_map]
    rfl
  have h2 : ((List.range (matMap nm.log (matMap (fun x => 1 - x) a)).ncols).map
      (fun j => dotQ ((y.map (fun v : ℕ => (v : ℚ))).map (fun v => 1 - v))
        (colQ (matMap nm.log (matMap (fun x => 1 - x) a)) j))).sum =
      (List.zipWith (fun (lbl : ℕ) (row : List ℚ) =>
        (1 - (lbl : ℚ)) * ((row.map (fun p => 1 - p)).map nm.log).sum) y a).sum := by
    rw [sum_cols_dot _ _ _ (by
        intro r hr
        rw [matMap_ncols, matMap_ncols]
        obtain ⟨ro, hro, rfl⟩ := List.mem_map.mp hr
        obtain ⟨ro2, hro2, rfl⟩ := List.mem_map.mp hro
        simpa using ha ro2 hro2)
      (by simp only [List.length_map, matMap]; exact hy)]
    rw [List.map_map, matMap, matMap, List.map_map, List.zipWith_map]
    rfl
  have hlen12 : ((List.range (matMap nm.log a).ncols).map
      (fun j => dotQ ((y.map (fun v : ℕ => (v : ℚ))).map (fun v => -v))
        (colQ (matMap nm.log a) j))).length =
      ((List.range (matMap nm.log (matMap (fun x => 1 - x) a)).ncols).map
      (fun j => dotQ ((y.map (fun v : ℕ => (v : ℚ))).map (fun v => 1 - v))
        (colQ (matMap nm.log (matMap (fun x => 1 - x) a)) j))).length := by
    simp [matMap_ncols]
  rw [sum_zipWith_sub_of_length _ _ hlen12, h1, h2, ← sum_zipWith_sub]
  congr 1
  exact congrArg List.sum (map_getD_range ([] : List (List ℚ))
    (fun W => 1 / 2 * s.reg_lambda * sumMat (matMap (fun w => w ^ 2) W))
    s.weights (s.n_layers + 1) hw)

/-- A small allocated engine (one input, one hidden unit, two outputs) used
by the C8 witness, with a two-sample dataset. -/
def c8State : MLPState :=
  (fit nmOne rngId
    (initUnchecked 1 2 [1] 2 "sigmoid" "softmax" "cross_entropy" (1/100) (1/10000) (9/10) 1)
    [[0], [1]] [0, 1] 0 false ⟨0, 0⟩).2.1

/-- Witness for C8 at a concrete engine and two-sample dataset. -/
theorem C8_compute_loss_formula_witness :
    ((∀ r ∈ (forward nmOne c8State [[0], [1]]).1,
        r.length = Mat.ncols (forward nmOne c8State [[0], [1]]).1) ∧
      ([0, 1] : List ℕ).length = (forward nmOne c8State [[0], [1]]).1.length ∧
      c8State.weights.length = c8State.n_layers + 1) ∧
    (compute_loss nmOne c8State [[0], [1]] [0, 1]).1 =
      specLossFormula nmOne c8State [[0], [1]] [0, 1] :=
  ⟨⟨by decide, by decide, by decide⟩,
    C8_compute_loss_formula nmOne c8State [[0], [1]] [0, 1] (by decide) (by decide) (by decide)⟩

theorem getD_mem' {α : Type} (l : List α) (n : ℕ) (d : α) (h : n < l.length) :
    l.getD n d ∈ l := by
  induction l generalizing n with
  | nil => simp at h
  | cons x xs ih =>
      cases n with
      | zero => exact List.mem_cons_self _ _
      | succ m => exact List.mem_cons_of_mem _ (ih m (by simpa using h))

theorem matMul_shape (A B : Mat) (b k n : ℕ) (hA : hasShape A b k) (hB : hasShape B k n)
    (hk : 0 < k) : hasShape (matMul A B) b n := by
  have hnc : B.ncols = n := by
    cases B with
    | nil => rw [hB.1.symm] at hk; simp at hk
    | cons r B2 => exact hB.2 r (List.mem_cons_self _ _)
  constructor
  · simpa [matMul] using hA.1
  · intro r hr
    obtain ⟨ar, har, rfl⟩ := List.mem_map.mp hr
    simp [hnc]

theorem matAddVec_shape (M : Mat) (v : List ℚ) (b n : ℕ) (hM : hasShape M b n)
    (hv : v.length = n) : hasShape (matAddVec M v) b n := by
  constructor
  · simpa [matAddVec] using hM.1
  · intro r hr
    obtain ⟨ro, hro, rfl⟩ := List.mem_map.mp hr
    simp [hM.2 ro hro, hv]

theorem matMap_shape (f : ℚ → ℚ) (M : Mat) (b n : ℕ) (hM : hasShape M b n) :
    hasShape (matMap f M) b n := by
  constructor
  · simpa [matMap] using hM.1
  · intro r hr
    obtain ⟨ro, hro, rfl⟩ := List.mem_map.mp hr
    simpa using hM.2 ro hro

theorem softmaxQ_shape (nm : NumModel) (M : Mat) (b n : ℕ) (hM : hasShape M b n) :
    hasShape (softmaxQ nm M) b n := by
  constructor
  · simpa [softmaxQ] using hM.1
  · intro r hr
    obtain ⟨ro, hro, rfl⟩ := List.mem_map.mp hr
    simpa using hM.2 ro hro

/-- Every row of the softmax of a matrix with nonempty rows sums to 1,
provided the exponential primitive is positive. -/
theorem softmaxQ_row_sum (nm : NumModel) (M : Mat) (hE : ∀ x, 0 < nm.exp x)
    (hM : ∀ ro ∈ M, ro ≠ []) : ∀ r ∈ softmaxQ nm M, r.sum = 1 := by
  intro r hr
  obtain ⟨ro, hro, rfl⟩ := List.mem_map.mp hr
  have hspos : 0 < (ro.map nm.exp).sum :=
    List.sum_pos _ (by
      intro x hx
      obtain ⟨x0, _, rfl⟩ := List.mem_map.mp hx
      exact hE x0)
      (by simpa using hM ro hro)
  have hfn : (fun x => nm.exp x / (ro.map nm.exp).sum) =
      fun x => (ro.map nm.exp).sum⁻¹ * nm.exp x := by
    funext x
    rw [div_eq_mul_inv, mul_comm]
  rw [hfn, sum_map_mul_left_q, inv_mul_cancel₀ (ne_of_gt hspos)]

/-- The list of layer widths: input, the hidden chain, output. -/
def layerSizes (s : MLPState) : List ℕ :=
  s.input_size :: s.hidden_layer_size ++ [s.output_size]

/-- Wellformedness of an engine after its first `fit` allocation: list
lengths as allocated, each weight matrix and bias vector shaped by the
consecutive layer widths, and all widths positive. -/
def WfFit (s : MLPState) : Prop :=
  s.n_layers = s.hidden_layer_size.length ∧
  s.weights.length = s.n_layers + 1 ∧
  s.bias.length = s.n_layers + 1 ∧
  s.layers.length = s.n_layers + 2 ∧
  s.deltas.length = s.n_layers + 1 ∧
  (∀ i, i < s.n_layers + 1 →
    hasShape (s.weights.getD i []) ((layerSizes s).getD i 0) ((layerSizes s).getD (i + 1) 0)) ∧
  (∀ i, i < s.n_layers + 1 → (s.bias.getD i []).length = (layerSizes s).getD (i + 1) 0) ∧
  (∀ z ∈ layerSizes s, 0 < z)

instance (s : MLPState) : Decidable (WfFit s) := by
  unfold WfFit; infer_instance

theorem layerSizes_length (s : MLPState) : (layerSizes s).length = s.hidden_layer_size.length + 2 := by
  simp [layerSizes]

theorem getD_append_singleton {α : Type} (l : List α) (z d : α) :
    (l ++ [z]).getD l.length d = z := by
  induction l with
  | nil => rfl
  | cons x xs ih => simpa using ih

theorem layerSizes_last (s : MLPState) :
    (layerSizes s).getD (s.hidden_layer_size.length + 1) 0 = s.output_size := by
  show (s.hidden_layer_size ++ [s.output_size]).getD s.hidden_layer_size.length 0 = _
  exact getD_append_singleton _ _ _

/-- Shape invariant of the hidden-layer loop: processing indices
`start … start+len-1` (with the slot before `start` holding a
`(b, sizes[start-1])` matrix) leaves slot `start-1+len` holding a
`(b, sizes[start-1+len])` matrix and the slots below `start` untouched. -/
theorem forwardHidden_spec (nm : NumModel) (act : String) (ws : List Mat)
    (bs : List (List ℚ)) (sizes : List ℕ) (b : ℕ)
    (hw : ∀ i, i + 1 < sizes.length →
      hasShape (ws.getD i []) (sizes.getD i 0) (sizes.getD (i + 1) 0))
    (hb : ∀ i, i + 1 < sizes.length → (bs.getD i []).length = sizes.getD (i + 1) 0)
    (hpos : ∀ z ∈ sizes, 0 < z) :
    ∀ (len start : ℕ) (L : List Mat),
      1 ≤ start → start + len ≤ sizes.length - 1 → start + len ≤ L.length →
      hasShape (L.getD (start - 1) []) b (sizes.getD (start - 1) 0) →
      hasShape ((forwardHidden nm act ws bs (List.range' start len) L).getD (start - 1 + len) []) b
          (sizes.getD (start - 1 + len) 0) ∧
      (∀ j, j < start →
        (forwardHidden nm act ws bs (List.range' start len) L).getD j [] = L.getD j []) ∧
      (∀ i, start ≤ i → i < start + len →
        hasShape ((forwardHidden nm act ws bs (List.range' start len) L).getD i []) b
          (sizes.getD i 0))
  | 0, start, L, hstart, hbound, hlen, hprev => by
      refine ⟨?_, fun j hj => rfl, fun i hi1 hi2 => by omega⟩
      simpa using hprev
  | len + 1, start, L, hstart, hbound, hlen, hprev => by
      rw [List.range'_succ]
      have hslt : sizes.getD start 0 = sizes.getD (start - 1 + 1) 0 := by
        congr 1; omega
      have hWsh : hasShape (ws.getD (start - 1) []) (sizes.getD (start - 1) 0)
          (sizes.getD start 0) := by
        have := hw (start - 1) (by omega)
        have he : start - 1 + 1 = start := by omega
        rwa [he] at this
      have hbsh : (bs.getD (start - 1) []).length = sizes.getD start 0 := by
        have := hb (start - 1) (by omega)
        have he : start - 1 + 1 = start := by omega
        rwa [he] at this
      have hkpos : 0 < sizes.getD (start - 1) 0 :=
        hpos _ (getD_mem' sizes (start - 1) 0 (by omega))
      have hnet : hasShape (matMap (actF nm act)
          (matAddVec (matMul (L.getD (start - 1) []) (ws.getD (start - 1) []))
            (bs.getD (start - 1) []))) b (sizes.getD start 0) :=
        matMap_shape _ _ _ _ (matAddVec_shape _ _ _ _
          (matMul_shape _ _ _ _ _ hprev hWsh hkpos) hbsh)
      have hstartlen : start < L.length := by omega
      obtain ⟨hsh, hun, hall⟩ := forwardHidden_spec nm act ws bs sizes b hw hb hpos len (start + 1)
        (L.set start (matMap (actF nm act)
          (matAddVec (matMul (L.getD (start - 1) []) (ws.getD (start - 1) []))
            (bs.getD (start - 1) []))))
        (by omega) (by omega) (by rw [List.length_set]; omega)
        (by
          have : (L.set start (matMap (actF nm act)
              (matAddVec (matMul (L.getD (start - 1) []) (ws.getD (start - 1) []))
                (bs.getD (start - 1) [])))).getD (start + 1 - 1) [] =
              matMap (actF nm act)
                (matAddVec (matMul (L.getD (start - 1) []) (ws.getD (start - 1) []))
                  (bs.getD (start - 1) [])) := by
            have he : start + 1 - 1 = start := by omega
            rw [he]
            exact getD_set_eq _ _ _ _ hstartlen
          rw [this]
          have he2 : sizes.getD (start + 1 - 1) 0 = sizes.getD start 0 := by congr 1
          rw [he2]
          exact hnet)
      have hstep : forwardHidden nm act ws bs (start :: List.range' (start + 1) len) L =
          forwardHidden nm act ws bs (List.range' (start + 1) len)
            (L.set start (matMap (actF nm act)
              (matAddVec (matMul (L.getD (start - 1) []) (ws.getD (start - 1) []))
                (bs.getD (start - 1) [])))) := rfl
      rw [hstep]
      refine ⟨?_, ?_, ?_⟩
      · have he3 : start + 1 - 1 + len = start - 1 + (len + 1) := by omega
        rwa [he3] at hsh
      · intro j hj
        rw [hun j (by omega), getD_set_ne _ _ _ _ _ (by omega)]
      · intro i hi1 hi2
        by_cases hieq : i = start
        · subst hieq
          rw [hun i (by omega), getD_set_eq _ _ _ _ hstartlen]
          exact hnet
        · exact hall i (by omega) (by omega)

/-- C6: on a wellformed engine (first-`fit` shapes, positive widths) whose
exponential primitive is positive, `forward` on a batch of `b` rows with
`input_size` columns returns a matrix of shape `(b, output_size)` whose
rows each sum to 1 — exactly, in the rational semantics. -/
theorem C6_forward_shape_rowsum (nm : NumModel) (s : MLPState) (X : Mat) (b : ℕ)
    (hwf : WfFit s) (hE : ∀ x, 0 < nm.exp x) (hX : hasShape X b s.input_size) :
    hasShape (forward nm s X).1 b s.output_size ∧
    ∀ r ∈ (forward nm s X).1, r.sum = 1 := by
  obtain ⟨hnl, hwlen, hblen, hllen, hdlen, hwsh, hbsh, hpos⟩ := hwf
  have hszlen : (layerSizes s).length = s.n_layers + 2 := by
    rw [layerSizes_length, hnl]
  have hprev : (s.layers.set 0 X).getD 0 [] = X :=
    getD_set_eq _ _ _ _ (by omega)
  obtain ⟨hsh, -, -⟩ := forwardHidden_spec nm s.activation s.weights s.bias (layerSizes s) b
    (fun i hi => hwsh i (by omega)) (fun i hi => hbsh i (by omega)) hpos
    s.n_layers 1 (s.layers.set 0 X) (by omega) (by omega)
    (by rw [List.length_set]; omega)
    (by rw [hprev]; exact hX)
  have hsz_nl : (1 : ℕ) - 1 + s.n_layers = s.n_layers := by omega
  rw [hsz_nl] at hsh
  have hout : (layerSizes s).getD (s.n_layers + 1) 0 = s.output_size := by
    rw [hnl]; exact layerSizes_last s
  have hW : hasShape (s.weights.getD s.n_layers []) ((layerSizes s).getD s.n_layers 0)
      s.output_size := by
    rw [← hout]; exact hwsh s.n_layers (by omega)
  have hbv : (s.bias.getD s.n_layers []).length = s.output_size := by
    rw [← hout]; exact hbsh s.n_layers (by omega)
  have hkpos : 0 < (layerSizes s).getD s.n_layers 0 :=
    hpos _ (getD_mem' _ _ _ (by omega))
  set layersH := forwardHidden nm s.activation s.weights s.bias
    (List.range' 1 s.n_layers) (s.layers.set 0 X) with hLH
  have hnet : hasShape (matAddVec (matMul (layersH.getD s.n_layers [])
      (s.weights.getD s.n_layers [])) (s.bias.getD s.n_layers [])) b s.output_size :=
    matAddVec_shape _ _ _ _ (matMul_shape _ _ _ _ _ hsh hW hkpos) hbv
  have hLHlen : layersH.length = s.n_layers + 2 := by
    rw [hLH, forwardHidden_length, List.length_set, hllen]
  have hres : (forward nm s X).1 = softmaxQ nm (matAddVec (matMul (layersH.getD s.n_layers [])
      (s.weights.getD s.n_layers [])) (s.bias.getD s.n_layers [])) := by
    show (((layersH.set (layersH.length - 1) _)).getD ((layersH.set (layersH.length - 1) _).length - 1) []) = _
    rw [List.length_set, getD_set_eq _ _ _ _ (by omega)]
  have hne : ∀ ro ∈ matAddVec (matMul (layersH.getD s.n_layers [])
      (s.weights.getD s.n_layers [])) (s.bias.getD s.n_layers []), ro ≠ [] := by
    intro ro hro
    have hol : ro.length = s.output_size := hnet.2 ro hro
    have hopos : 0 < s.output_size := hpos s.output_size (by simp [layerSizes])
    intro hnil
    rw [hnil] at hol
    simp at hol
    omega
  rw [hres]
  exact ⟨softmaxQ_shape _ _ _ _ hnet, softmaxQ_row_sum nm _ hE hne⟩

/-- The allocated engine used by the C6 witness. -/
def c6State : MLPState :=
  (fit nmOne rngId
    (initUnchecked 1 2 [1] 1 "sigmoid" "softmax" "cross_entropy" (1/100) (1/10000) (9/10) 1)
    [[0]] [0] 0 false ⟨0, 0⟩).2.1

/-- Witness for C6 at a concrete wellformed engine and batch. -/
theorem C6_forward_shape_rowsum_witness :
    (WfFit c6State ∧ (∀ x : ℚ, 0 < nmOne.exp x) ∧ hasShape [[0]] 1 c6State.input_size) ∧
    (hasShape (forward nmOne c6State [[0]]).1 1 c6State.output_size ∧
      ∀ r ∈ (forward nmOne c6State [[0]]).1, r.sum = 1) :=
  ⟨⟨by decide, fun _ => one_pos, by decide⟩,
    C6_forward_shape_rowsum nmOne c6State [[0]] 1 (by decide) (fun _ => one_pos) (by decide)⟩

theorem ncols_of_shape (A : Mat) (b n : ℕ) (h : hasShape A b n) (hb : 0 < b) :
    A.ncols = n := by
  cases A with
  | nil => rw [h.1.symm] at hb; simp at hb
  | cons r A2 => exact h.2 r (List.mem_cons_self _ _)

theorem zipzip_shape (f : ℚ → ℚ → ℚ) : ∀ (A B : Mat) (b n : ℕ),
    hasShape A b n → hasShape B b n →
    hasShape (List.zipWith (List.zipWith f) A B) b n
  | [], B, b, n, hA, hB => by
      constructor
      · simpa using hA.1
      · intro r hr; simp at hr
  | _ :: _, [], b, n, hA, hB => by
      have h1 := hA.1
      have h2 := hB.1
      simp at h1 h2
      omega
  | rA :: A2, rB :: B2, b, n, hA, hB => by
      cases b with
      | zero => have h1 := hA.1; simp at h1
      | succ b2 =>
          have hA2 : hasShape A2 b2 n :=
            ⟨by simpa using hA.1, fun r hr => hA.2 r (List.mem_cons_of_mem _ hr)⟩
          have hB2 : hasShape B2 b2 n :=
            ⟨by simpa using hB.1, fun r hr => hB.2 r (List.mem_cons_of_mem _ hr)⟩
          have ih := zipzip_shape f A2 B2 b2 n hA2 hB2
          constructor
          · simpa using ih.1
          · intro r hr
            rcases List.mem_cons.mp hr with hr1 | hr2
            · subst hr1
              rw [List.length_zipWith, hA.2 rA (List.mem_cons_self _ _),
                hB.2 rB (List.mem_cons_self _ _)]
              omega
            · exact ih.2 r hr2

theorem matSub_shape (A B : Mat) (b n : ℕ) (hA : hasShape A b n) (hB : hasShape B b n) :
    hasShape (matSub A B) b n := zipzip_shape _ A B b n hA hB

theorem hadamard_shape (A B : Mat) (b n : ℕ) (hA : hasShape A b n) (hB : hasShape B b n) :
    hasShape (hadamard A B) b n := zipzip_shape _ A B b n hA hB

theorem smulMat_shape (c : ℚ) (A : Mat) (b n : ℕ) (hA : hasShape A b n) :
    hasShape (smulMat c A) b n := by
  constructor
  · simpa [smulMat] using hA.1
  · intro r hr
    obtain ⟨ro, hro, rfl⟩ := List.mem_map.mp hr
    simpa using hA.2 ro hro

theorem matMulBT_shape (A B : Mat) (b n k : ℕ) (hA : A.length = b) (hB : B.length = n) :
    hasShape (matMulBT A B) b n := by
  constructor
  · simpa [matMulBT] using hA
  · intro r hr
    obtain ⟨ar, har, rfl⟩ := List.mem_map.mp hr
    simpa using hB

theorem matTMul_shape (A B : Mat) (b m n : ℕ) (hA : hasShape A b m) (hB : hasShape B b n)
    (hb : 0 < b) : hasShape (matTMul A B) m n := by
  constructor
  · simp [matTMul, ncols_of_shape A b m hA hb]
  · intro r hr
    obtain ⟨p, hp, rfl⟩ := List.mem_map.mp hr
    simp [ncols_of_shape B b n hB hb]

theorem subOneAux_shape (y : List ℕ) (nrows : ℕ) : ∀ (i : ℕ) (M : Mat) (b n : ℕ),
    hasShape M b n → hasShape (subOneAux y nrows i M) b n
  | _, [], b, n, hM => by
      constructor
      · simpa [subOneAux] using hM.1
      · intro r hr; simp [subOneAux] at hr
  | i, row :: M2, b, n, hM => by
      cases b with
      | zero => have h1 := hM.1; simp at h1
      | succ b2 =>
          have hM2 : hasShape M2 b2 n :=
            ⟨by simpa using hM.1, fun r hr => hM.2 r (List.mem_cons_of_mem _ hr)⟩
          have ih := subOneAux_shape y nrows (i + 1) M2 b2 n hM2
          constructor
          · show List.length (_ :: subOneAux y nrows (i + 1) M2) = b2 + 1
            simp [ih.1]
          · intro r hr
            rcases List.mem_cons.mp hr with hr1 | hr2
            · subst hr1
              by_cases hi : i < nrows <;>
                simp [hi, List.length_set, hM.2 row (List.mem_cons_self _ _)]
            · exact ih.2 r hr2

theorem subOneAtLabels_shape (M : Mat) (y : List ℕ) (nrows b n : ℕ) (hM : hasShape M b n) :
    hasShape (subOneAtLabels M y nrows) b n := subOneAux_shape y nrows 0 M b n hM

theorem drawMat_shape (rng : RngModel) (lo hi : ℚ) (m n k : ℕ) :
    hasShape (drawMat rng lo hi m n k) m n := by
  constructor
  · simp [drawMat]
  · intro r hr
    obtain ⟨j, hj, rfl⟩ := List.mem_map.mp hr
    simp

theorem drawVec_length (rng : RngModel) (lo hi : ℚ) (n k : ℕ) :
    (drawVec rng lo hi n k).length = n := by simp [drawVec]

/-- Shape invariant of the hidden-delta loop, processed from index `m` down
to 1: if every delta slot at index ≥ `m` holds a `(b, sizes[j+1])` matrix,
then after the loop every slot does. -/
theorem backwardDeltas_shapes (nm : NumModel) (act : String) (ws layersL : List Mat)
    (sizes : List ℕ) (b : ℕ)
    (hW : ∀ i, i + 1 < sizes.length →
      hasShape (ws.getD i []) (sizes.getD i 0) (sizes.getD (i + 1) 0))
    (hL : ∀ i, i + 1 < sizes.length → hasShape (layersL.getD i []) b (sizes.getD i 0)) :
    ∀ (m : ℕ) (ds : List Mat),
      m + 1 ≤ sizes.length - 1 →
      sizes.length - 1 ≤ ds.length →
      (∀ j, m ≤ j → j + 2 ≤ sizes.length → hasShape (ds.getD j []) b (sizes.getD (j + 1) 0)) →
      ∀ j, j + 2 ≤ sizes.length →
        hasShape ((backwardDeltas nm act ws layersL ((List.range' 1 m).reverse) ds).getD j []) b
          (sizes.getD (j + 1) 0)
  | 0, ds, hm, hdl, hds, j, hj => by simpa using hds j (by omega) hj
  | m + 1, ds, hm, hdl, hds, j, hj => by
      have hrev : (List.range' 1 (m + 1)).reverse = (m + 1) :: (List.range' 1 m).reverse := by
        have hcat : List.range' 1 (m + 1) = List.range' 1 m ++ [1 + 1 * m] :=
          List.range'_concat 1 m
        rw [show List.range' 1 (m + 1) = List.range' 1 m ++ [1 + m] by simpa using hcat]
        rw [List.reverse_append]
        simp [Nat.add_comm]
      rw [hrev]
      have hstep : backwardDeltas nm act ws layersL ((m + 1) :: (List.range' 1 m).reverse) ds =
          backwardDeltas nm act ws layersL ((List.range' 1 m).reverse)
            (ds.set m (hadamard (matMulBT (ds.getD (m + 1) []) (ws.getD (m + 1) []))
              (matMap (dactF nm act) (layersL.getD (m + 1) [])))) := rfl
      rw [hstep]
      have hdnew : hasShape (hadamard (matMulBT (ds.getD (m + 1) []) (ws.getD (m + 1) []))
          (matMap (dactF nm act) (layersL.getD (m + 1) []))) b (sizes.getD (m + 1) 0) := by
        have hd1 : hasShape (ds.getD (m + 1) []) b (sizes.getD (m + 2) 0) := by
          have := hds (m + 1) (by omega) (by omega)
          simpa using this
        have hw1 := hW (m + 1) (by omega)
        refine hadamard_shape _ _ _ _ ?_ (matMap_shape _ _ _ _ (hL (m + 1) (by omega)))
        exact matMulBT_shape _ _ _ _ (sizes.getD (m + 2) 0) hd1.1 hw1.1
      apply backwardDeltas_shapes nm act ws layersL sizes b hW hL m _ (by omega)
        (by rw [List.length_set]; omega) ?_ j hj
      intro j2 hj2 hj2b
      by_cases hjm : j2 = m
      · subst hjm
        rw [getD_set_eq _ _ _ _ (by omega)]
        exact hdnew
      · rw [getD_set_ne _ _ _ _ _ (by omega)]
        exact hds j2 (by omega) hj2b

theorem forward_layers_length (nm : NumModel) (s : MLPState) (X : Mat) :
    (forward nm s X).2.layers.length = s.layers.length := by
  simp only [forward]
  rw [List.length_set, forwardHidden_length, List.length_set]

theorem forward_preserves_wf (nm : NumModel) (s : MLPState) (X : Mat) (h : WfFit s) :
    WfFit (forward nm s X).2 := by
  obtain ⟨h1, h2, h3, h4, h5, h6, h7, h8⟩ := h
  exact ⟨h1, h2, h3, by rw [forward_layers_length]; exact h4, h5, h6, h7, h8⟩

/-- After `forward` on a batch of `b` rows of width `input_size`, every
activation buffer slot `i` holds a `(b, sizes[i])` matrix. -/
theorem forward_layers_shaped (nm : NumModel) (s : MLPState) (X : Mat) (b : ℕ)
    (hwf : WfFit s) (hX : hasShape X b s.input_size) :
    ∀ i, i < s.n_layers + 2 →
      hasShape ((forward nm s X).2.layers.getD i []) b ((layerSizes s).getD i 0) := by
  obtain ⟨hnl, hwlen, hblen, hllen, hdlen, hwsh, hbsh, hpos⟩ := hwf
  have hszlen : (layerSizes s).length = s.n_layers + 2 := by
    rw [layerSizes_length, hnl]
  have hprev : (s.layers.set 0 X).getD 0 [] = X := getD_set_eq _ _ _ _ (by omega)
  obtain ⟨hsh, hun, hall⟩ := forwardHidden_spec nm s.activation s.weights s.bias (layerSizes s) b
    (fun i hi => hwsh i (by omega)) (fun i hi => hbsh i (by omega)) hpos
    s.n_layers 1 (s.layers.set 0 X) (by omega) (by omega)
    (by rw [List.length_set]; omega)
    (by rw [hprev]; exact hX)
  have hsz_nl : (1 : ℕ) - 1 + s.n_layers = s.n_layers := by omega
  rw [hsz_nl] at hsh
  have hout : (layerSizes s).getD (s.n_layers + 1) 0 = s.output_size := by
    rw [hnl]; exact layerSizes_last s
  have hW : hasShape (s.weights.getD s.n_layers []) ((layerSizes s).getD s.n_layers 0)
      s.output_size := by
    rw [← hout]; exact hwsh s.n_layers (by omega)
  have hbv : (s.bias.getD s.n_layers []).length = s.output_size := by
    rw [← hout]; exact hbsh s.n_layers (by omega)
  have hkpos : 0 < (layerSizes s).getD s.n_layers 0 :=
    hpos _ (getD_mem' _ _ _ (by omega))
  set layersH := forwardHidden nm s.activation s.weights s.bias
    (List.range' 1 s.n_layers) (s.layers.set 0 X) with hLH
  have hnet : hasShape (matAddVec (matMul (layersH.getD s.n_layers [])
      (s.weights.getD s.n_layers [])) (s.bias.getD s.n_layers [])) b s.output_size :=
    matAddVec_shape _ _ _ _ (matMul_shape _ _ _ _ _ hsh hW hkpos) hbv
  have hLHlen : layersH.length = s.n_layers + 2 := by
    rw [hLH, forwardHidden_length, List.length_set, hllen]
  have hlayersO : (forward nm s X).2.layers = layersH.set (layersH.length - 1)
      (softmaxQ nm (matAddVec (matMul (layersH.getD s.n_layers [])
        (s.weights.getD s.n_layers [])) (s.bias.getD s.n_layers []))) := rfl
  intro i hi
  rw [hlayersO, hLHlen]
  by_cases hieq : i = s.n_layers + 1
  · subst hieq
    have : s.n_layers + 2 - 1 = s.n_layers + 1 := by omega
    rw [this, getD_set_eq _ _ _ _ (by rw [hLHlen]; omega), hout]
    exact softmaxQ_shape _ _ _ _ hnet
  · rw [getD_set_ne _ _ _ _ _ (by omega)]
    by_cases hi0 : i = 0
    · subst hi0
      rw [hun 0 (by omega), hprev]
      exact hX
    · exact hall i (by omega) (by omega)

/-- `backward` under the cross-entropy loss, written out as the record
update it denotes. -/
theorem backward_eq_of_ce (nm : NumModel) (s : MLPState) (X : Mat) (y : List ℕ)
    (hloss : s.loss = "cross_entropy") :
    backward nm s X y =
      { s with
        layers := s.layers.set (s.layers.length - 1)
          (subOneAtLabels (s.layers.getD (s.layers.length - 1) []) y X.length),
        deltas := backwardDeltas nm s.activation s.weights
          (s.layers.set (s.layers.length - 1)
            (subOneAtLabels (s.layers.getD (s.layers.length - 1) []) y X.length))
          ((List.range' 1 s.n_layers).reverse)
          (s.deltas.set (s.deltas.length - 1)
            (subOneAtLabels (s.layers.getD (s.layers.length - 1) []) y X.length)),
        weights := backwardWeights s.lr
          (s.layers.set (s.layers.length - 1)
            (subOneAtLabels (s.layers.getD (s.layers.length - 1) []) y X.length))
          (backwardDeltas nm s.activation s.weights
            (s.layers.set (s.layers.length - 1)
              (subOneAtLabels (s.layers.getD (s.layers.length - 1) []) y X.length))
            ((List.range' 1 s.n_layers).reverse)
            (s.deltas.set (s.deltas.length - 1)
              (subOneAtLabels (s.layers.getD (s.layers.length - 1) []) y X.length)))
          ((List.range (s.n_layers + 1)).reverse) s.weights } := by
  simp only [backward, hloss, ite_true, if_true, eq_self_iff_true]

/-- `backward` preserves the wellformedness invariant, given the layer
buffers hold a forward pass's shapes for a positive batch size. -/
theorem backward_preserves_wf (nm : NumModel) (s : MLPState) (X : Mat) (y : List ℕ) (b : ℕ)
    (hwf : WfFit s) (hloss : s.loss = "cross_entropy") (hb : 0 < b)
    (hlsh : ∀ i, i < s.n_layers + 2 → hasShape (s.layers.getD i []) b ((layerSizes s).getD i 0)) :
    WfFit (backward nm s X y) := by
  obtain ⟨hnl, hwlen, hblen, hllen, hdlen, hwsh, hbsh, hpos⟩ := hwf
  have hszlen : (layerSizes s).length = s.n_layers + 2 := by
    rw [layerSizes_length, hnl]
  rw [backward_eq_of_ce nm s X y hloss]
  set dOut := subOneAtLabels (s.layers.getD (s.layers.length - 1) []) y X.length with hdOutDef
  set L2 := s.layers.set (s.layers.length - 1) dOut with hL2def
  set D2 := s.deltas.set (s.deltas.length - 1) dOut with hD2def
  set ds2 := backwardDeltas nm s.activation s.weights L2 ((List.range' 1 s.n_layers).reverse) D2
    with hds2def
  have hdOut : hasShape dOut b ((layerSizes s).getD (s.n_layers + 1) 0) := by
    rw [hdOutDef]
    refine subOneAtLabels_shape _ _ _ _ _ ?_
    have := hlsh (s.n_layers + 1) (by omega)
    rwa [show s.layers.length - 1 = s.n_layers + 1 by omega]
  have hL2 : ∀ i, i < s.n_layers + 2 → hasShape (L2.getD i []) b ((layerSizes s).getD i 0) := by
    intro i hi
    rw [hL2def]
    by_cases hieq : i = s.n_layers + 1
    · subst hieq
      rw [show s.layers.length - 1 = s.n_layers + 1 by omega,
        getD_set_eq _ _ _ _ (by omega)]
      exact hdOut
    · rw [getD_set_ne _ _ _ _ _ (by omega)]
      exact hlsh i hi
  have hds2 : ∀ j, j + 2 ≤ (layerSizes s).length →
      hasShape (ds2.getD j []) b ((layerSizes s).getD (j + 1) 0) := by
    rw [hds2def]
    refine backwardDeltas_shapes nm s.activation s.weights L2 (layerSizes s) b
      (fun i hi => hwsh i (by omega)) (fun i hi => hL2 i (by omega)) s.n_layers D2
      (by omega) (by rw [hD2def, List.length_set]; omega) ?_
    intro j hj1 hj2
    have hjeq : j = s.n_layers := by omega
    subst hjeq
    rw [hD2def, show s.deltas.length - 1 = s.n_layers by omega,
      getD_set_eq _ _ _ _ (by omega)]
    exact hdOut
  refine ⟨hnl, ?_, hblen, ?_, ?_, ?_, hbsh, hpos⟩
  · rw [backwardWeights_length]
    exact hwlen
  · rw [hL2def, List.length_set]
    exact hllen
  · rw [hds2def, backwardDeltas_length, hD2def, List.length_set]
    exact hdlen
  · intro i hi
    have hi2 : i < s.n_layers + 1 := hi
    show hasShape ((backwardWeights s.lr L2 ds2 ((List.range (s.n_layers + 1)).reverse)
        s.weights).getD i []) ((layerSizes s).getD i 0) ((layerSizes s).getD (i + 1) 0)
    rw [backwardWeights_getD _ _ _ _ _ (nodup_range_reverse _) i,
      if_pos ⟨(mem_range_reverse _ _).mpr (by omega), by omega⟩]
    refine matSub_shape _ _ _ _ (hwsh i hi2) (smulMat_shape _ _ _ _ ?_)
    exact matTMul_shape _ _ b _ _ (hL2 i (by omega)) (hds2 i (by omega)) hb

theorem backward_loss_eq (nm : NumModel) (s : MLPState) (X : Mat) (y : List ℕ) :
    (backward nm s X y).loss = s.loss := (backward_fields_eq nm s X y).2.2.2.2.2.1

theorem backward_input_size_eq (nm : NumModel) (s : MLPState) (X : Mat) (y : List ℕ) :
    (backward nm s X y).input_size = s.input_size :=
  (backward_fields_eq nm s X y).2.2.2.2.2.2.2.2.1

theorem backward_batch_size_eq (nm : NumModel) (s : MLPState) (X : Mat) (y : List ℕ) :
    (backward nm s X y).batch_size = s.batch_size :=
  (backward_fields_eq nm s X y).2.2.2.1

theorem runBatches_loss_eq (nm : NumModel) : ∀ (starts : List ℕ) (s : MLPState)
    (X : Mat) (y : List ℕ), (runBatches nm starts s X y).loss = s.loss
  | [], _, _, _ => rfl
  | st :: rest, s, X, y => by
      show (runBatches nm rest (backward nm (forward nm s _).2 _ _) X y).loss = s.loss
      rw [runBatches_loss_eq nm rest _ X y, backward_loss_eq]
      rfl

theorem runBatches_input_size_eq (nm : NumModel) : ∀ (starts : List ℕ) (s : MLPState)
    (X : Mat) (y : List ℕ), (runBatches nm starts s X y).input_size = s.input_size
  | [], _, _, _ => rfl
  | st :: rest, s, X, y => by
      show (runBatches nm rest (backward nm (forward nm s _).2 _ _) X y).input_size = s.input_size
      rw [runBatches_input_size_eq nm rest _ X y, backward_input_size_eq]
      rfl

theorem batchStarts_mem (n bs st : ℕ) (h : st ∈ batchStarts n bs) : 0 < bs ∧ st < n := by
  unfold batchStarts at h
  by_cases hbs : bs = 0
  · simp [hbs] at h
  · rw [if_neg hbs] at h
    obtain ⟨j, hj, rfl⟩ := List.mem_map.mp h
    rw [List.mem_range] at hj
    have h1 : (j + 1) * bs ≤ ((n + bs - 1) / bs) * bs :=
      Nat.mul_le_mul_right bs hj
    have h2 : ((n + bs - 1) / bs) * bs ≤ n + bs - 1 := Nat.div_mul_le_self _ _
    have h3 : j * bs + bs ≤ n + bs - 1 := by
      have : (j + 1) * bs = j * bs + bs := by ring
      omega
    omega

/-- The batch loop preserves the wellformedness invariant. -/
theorem runBatches_preserves_wf (nm : NumModel) : ∀ (starts : List ℕ) (s : MLPState)
    (X : Mat) (y : List ℕ),
    WfFit s → s.loss = "cross_entropy" →
    (∀ r ∈ X, r.length = s.input_size) →
    (∀ st ∈ starts, 0 < s.batch_size ∧ st < X.length) →
    WfFit (runBatches nm starts s X y)
  | [], s, X, y, hwf, _, _, _ => hwf
  | st :: rest, s, X, y, hwf, hloss, hrows, hmem => by
      obtain ⟨hbs, hst⟩ := hmem st (List.mem_cons_self _ _)
      have hXbne : 0 < ((X.drop st).take s.batch_size).length := by
        rw [List.length_take, List.length_drop]
        omega
      have hXbsh : hasShape ((X.drop st).take s.batch_size)
          ((X.drop st).take s.batch_size).length s.input_size :=
        ⟨rfl, fun r hr => hrows r (List.drop_subset st X (List.take_subset _ _ hr))⟩
      have hs1 := forward_preserves_wf nm s ((X.drop st).take s.batch_size) hwf
      have hlsh := forward_layers_shaped nm s ((X.drop st).take s.batch_size)
        ((X.drop st).take s.batch_size).length hwf hXbsh
      have hs2 := backward_preserves_wf nm (forward nm s ((X.drop st).take s.batch_size)).2
        ((X.drop st).take s.batch_size) ((y.drop st).take s.batch_size)
        ((X.drop st).take s.batch_size).length hs1 hloss hXbne hlsh
      show WfFit (runBatches nm rest (backward nm (forward nm s ((X.drop st).take s.batch_size)).2
        ((X.drop st).take s.batch_size) ((y.drop st).take s.batch_size)) X y)
      refine runBatches_preserves_wf nm rest _ X y hs2 ?_ ?_ ?_
      · rw [backward_loss_eq]
        exact hloss
      · rw [backward_input_size_eq]
        exact hrows
      · rw [backward_batch_size_eq]
        exact fun st2 hst2 => hmem st2 (List.mem_cons_of_mem _ hst2)

/-- The epoch loop preserves the wellformedness invariant, provided the
shuffle oracle returns genuine index permutations (right length, in-range
entries) and the data initially has `n` rows of `input_size` entries. -/
theorem epochLoop_preserves_wf (nm : NumModel) (rng : RngModel) (shf : Bool) (n : ℕ)
    (hperm : ∀ kk nn, (rng.permAt kk nn).length = nn ∧ ∀ j ∈ rng.permAt kk nn, j < nn) :
    ∀ (fuel i : ℕ) (s : MLPState) (X : Mat) (y : List ℕ) (k : ℕ),
      WfFit s → s.loss = "cross_entropy" →
      (∀ r ∈ X, r.length = s.input_size) → X.length = n →
      WfFit (epochLoop nm rng shf n fuel i s X y k).1
  | 0, i, s, X, y, k, hwf, _, _, _ => hwf
  | fuel + 1, i, s, X, y, k, hwf, hloss, hrows, hXlen => by
      have hrow2 : ∀ (X2 : Mat) (y2 : List ℕ) (k2 : ℕ), (∀ r ∈ X2, r.length = s.input_size) →
          X2.length = n →
          WfFit (epochLoop nm rng shf n fuel (i + 1)
            (if i % s.verbose = 0 then
              (score nm (compute_loss nm
                (runBatches nm (batchStarts n s.batch_size) s X2 y2) X2 y2).2 X2 y2).2
            else runBatches nm (batchStarts n s.batch_size) s X2 y2) X2 y2 k2).1 := by
        intro X2 y2 k2 hrows2 hX2len
        have hs1 : WfFit (runBatches nm (batchStarts n s.batch_size) s X2 y2) :=
          runBatches_preserves_wf nm _ s X2 y2 hwf hloss hrows2
            (fun st hst => by
              obtain ⟨h1, h2⟩ := batchStarts_mem n s.batch_size st hst
              omega)
        have hfields := runBatches_fields_eq nm (batchStarts n s.batch_size) s X2 y2
        have hloss1 : (runBatches nm (batchStarts n s.batch_size) s X2 y2).loss =
            "cross_entropy" := by
          rw [(runBatches_loss_eq nm _ s X2 y2)]
          exact hloss
        by_cases hlog : i % s.verbose = 0
        · rw [if_pos hlog]
          refine epochLoop_preserves_wf nm rng shf n hperm fuel (i + 1) _ X2 y2 k2
            (forward_preserves_wf nm _ _ (forward_preserves_wf nm _ _ hs1)) ?_ ?_ hX2len
          · show (runBatches nm (batchStarts n s.batch_size) s X2 y2).loss = "cross_entropy"
            exact hloss1
          · show ∀ r ∈ X2, r.length = (runBatches nm (batchStarts n s.batch_size) s X2 y2).input_size
            rw [runBatches_input_size_eq]
            exact hrows2
        · rw [if_neg hlog]
          refine epochLoop_preserves_wf nm rng shf n hperm fuel (i + 1) _ X2 y2 k2 hs1
            hloss1 ?_ hX2len
          rw [runBatches_input_size_eq]
          exact hrows2
      cases shf with
      | false =>
          show WfFit (epochLoop nm rng false n (fuel + 1) i s X y k).1
          have hstep : epochLoop nm rng false n (fuel + 1) i s X y k =
              epochLoop nm rng false n fuel (i + 1)
                (if i % s.verbose = 0 then
                  (score nm (compute_loss nm
                    (runBatches nm (batchStarts n s.batch_size) s X y) X y).2 X y).2
                else runBatches nm (batchStarts n s.batch_size) s X y) X y k := rfl
          rw [hstep]
          exact hrow2 X y k hrows hXlen
      | true =>
          show WfFit (epochLoop nm rng true n (fuel + 1) i s X y k).1
          have hstep : epochLoop nm rng true n (fuel + 1) i s X y k =
              epochLoop nm rng true n fuel (i + 1)
                (if i % s.verbose = 0 then
                  (score nm (compute_loss nm
                    (runBatches nm (batchStarts n s.batch_size) s
                      ((rng.permAt k X.length).map (fun j => X.getD j []))
                      ((rng.permAt k X.length).map (fun j => y.getD j 0)))
                    ((rng.permAt k X.length).map (fun j => X.getD j []))
                    ((rng.permAt k X.length).map (fun j => y.getD j 0))).2
                    ((rng.permAt k X.length).map (fun j => X.getD j []))
                    ((rng.permAt k X.length).map (fun j => y.getD j 0))).2
                else runBatches nm (batchStarts n s.batch_size) s
                  ((rng.permAt k X.length).map (fun j => X.getD j []))
                  ((rng.permAt k X.length).map (fun j => y.getD j 0)))
                ((rng.permAt k X.length).map (fun j => X.getD j []))
                ((rng.permAt k X.length).map (fun j => y.getD j 0))
                (k + rng.permCost X.length) := rfl
          rw [hstep]
          refine hrow2 _ _ _ ?_ ?_
          · intro r hr
            obtain ⟨j, hj, rfl⟩ := List.mem_map.mp hr
            exact hrows _ (getD_mem' X j [] (by
              have := (hperm k X.length).2 j hj
              omega))
          · rw [List.length_map, (hperm k X.length).1, hXlen]

theorem getD_range' : ∀ (n s t : ℕ), t < n → (List.range' s n).getD t 0 = s + t
  | 0, _, t, ht => absurd ht (by omega)
  | n + 1, s, 0, _ => by rw [List.range'_succ]; rfl
  | n + 1, s, t + 1, ht => by
      rw [List.range'_succ]
      show (List.range' (s + 1) n).getD t 0 = s + (t + 1)
      rw [getD_range' n (s + 1) t (by omega)]
      omega

/-- Shape of the `t`-th matrix/bias appended by the hidden-chain
allocation loop: fan-in `hs[idx-1]`, fan-out `hs[idx]` for the `t`-th
processed index `idx`. -/
theorem allocHidden_shapes (nm : NumModel) (rng : RngModel) (act : String) (hs : List ℕ) :
    ∀ (idxs : List ℕ) (ws : List Mat) (bs : List (List ℚ)) (k t : ℕ), t < idxs.length →
      hasShape ((allocHidden nm rng act hs idxs (ws, bs, k)).1.getD (ws.length + t) [])
        (hs.getD (idxs.getD t 0 - 1) 0) (hs.getD (idxs.getD t 0) 0) ∧
      ((allocHidden nm rng act hs idxs (ws, bs, k)).2.1.getD (bs.length + t) []).length =
        hs.getD (idxs.getD t 0) 0
  | [], _, _, _, t, ht => absurd ht (by simp)
  | i :: rest, ws, bs, k, t, ht => by
      have hdef : allocHidden nm rng act hs (i :: rest) (ws, bs, k) =
          allocHidden nm rng act hs rest
            (ws ++ [drawMat rng (-get_weight_bound nm act (hs.getD (i - 1) 0) (hs.getD i 0))
              (get_weight_bound nm act (hs.getD (i - 1) 0) (hs.getD i 0))
              (hs.getD (i - 1) 0) (hs.getD i 0) k],
            bs ++ [drawVec rng (-get_weight_bound nm act (hs.getD (i - 1) 0) (hs.getD i 0))
              (get_weight_bound nm act (hs.getD (i - 1) 0) (hs.getD i 0))
              (hs.getD i 0) (k + hs.getD (i - 1) 0 * hs.getD i 0)],
            k + hs.getD (i - 1) 0 * hs.getD i 0 + hs.getD i 0) := rfl
      rw [hdef]
      obtain ⟨hl1, hl2, hpre1, hpre2⟩ := allocHidden_spec nm rng act hs rest
        (ws ++ [drawMat rng (-get_weight_bound nm act (hs.getD (i - 1) 0) (hs.getD i 0))
          (get_weight_bound nm act (hs.getD (i - 1) 0) (hs.getD i 0))
          (hs.getD (i - 1) 0) (hs.getD i 0) k])
        (bs ++ [drawVec rng (-get_weight_bound nm act (hs.getD (i - 1) 0) (hs.getD i 0))
          (get_weight_bound nm act (hs.getD (i - 1) 0) (hs.getD i 0))
          (hs.getD i 0) (k + hs.getD (i - 1) 0 * hs.getD i 0)])
        (k + hs.getD (i - 1) 0 * hs.getD i 0 + hs.getD i 0)
      cases t with
      | zero =>
          constructor
          · rw [show ws.length + 0 = ws.length by omega,
              hpre1 ws.length (by simp), getD_append_singleton]
            exact drawMat_shape _ _ _ _ _ _
          · rw [show bs.length + 0 = bs.length by omega,
              hpre2 bs.length (by simp), getD_append_singleton, drawVec_length]
            rfl
      | succ t2 =>
          have ih := allocHidden_shapes nm rng act hs rest
            (ws ++ [drawMat rng (-get_weight_bound nm act (hs.getD (i - 1) 0) (hs.getD i 0))
              (get_weight_bound nm act (hs.getD (i - 1) 0) (hs.getD i 0))
              (hs.getD (i - 1) 0) (hs.getD i 0) k])
            (bs ++ [drawVec rng (-get_weight_bound nm act (hs.getD (i - 1) 0) (hs.getD i 0))
              (get_weight_bound nm act (hs.getD (i - 1) 0) (hs.getD i 0))
              (hs.getD i 0) (k + hs.getD (i - 1) 0 * hs.getD i 0)])
            (k + hs.getD (i - 1) 0 * hs.getD i 0 + hs.getD i 0) t2 (by simpa using ht)
          constructor
          · have he : ws.length + (t2 + 1) =
                (ws ++ [drawMat rng (-get_weight_bound nm act (hs.getD (i - 1) 0) (hs.getD i 0))
                  (get_weight_bound nm act (hs.getD (i - 1) 0) (hs.getD i 0))
                  (hs.getD (i - 1) 0) (hs.getD i 0) k]).length + t2 := by
              simp
              omega
            rw [he]
            exact ih.1
          · have he : bs.length + (t2 + 1) =
                (bs ++ [drawVec rng (-get_weight_bound nm act (hs.getD (i - 1) 0) (hs.getD i 0))
                  (get_weight_bound nm act (hs.getD (i - 1) 0) (hs.getD i 0))
                  (hs.getD i 0) (k + hs.getD (i - 1) 0 * hs.getD i 0)]).length + t2 := by
              simp
              omega
            rw [he]
            exact ih.2

/-- On a fresh engine (empty parameter store), the allocation block of
`fit` produces weight matrix `i` of shape `(sizes[i], sizes[i+1])` and bias
vector `i` of length `sizes[i+1]`, for the layer-width list
`input_size :: hidden ++ [output_size]`, in topological order. -/
theorem allocParams_shapes (nm : NumModel) (rng : RngModel) (s : MLPState) (k : ℕ)
    (hw0 : s.weights = []) (hb0 : s.bias = []) (hhid : s.hidden_layer_size ≠ []) :
    ∀ i, i < s.hidden_layer_size.length + 1 →
      hasShape ((allocParams nm rng s s.input_size k).1.weights.getD i [])
        ((layerSizes s).getD i 0) ((layerSizes s).getD (i + 1) 0) ∧
      ((allocParams nm rng s s.input_size k).1.bias.getD i []).length =
        (layerSizes s).getD (i + 1) 0 := by
  have hlen : 1 ≤ s.hidden_layer_size.length := by
    cases hh : s.hidden_layer_size with
    | nil => exact absurd hh hhid
    | cons a l => simp [hh]
  set B0 := get_weight_bound nm s.activation s.input_size (s.hidden_layer_size.getD 0 0)
    with hB0
  set W0 := drawMat rng (-B0) B0 s.input_size (s.hidden_layer_size.getD 0 0) k with hW0
  set V0 := drawVec rng (-B0) B0 (s.hidden_layer_size.getD 0 0)
    (k + s.input_size * s.hidden_layer_size.getD 0 0) with hV0
  set K1 := k + s.input_size * s.hidden_layer_size.getD 0 0 + s.hidden_layer_size.getD 0 0
    with hK1
  set MID := allocHidden nm rng s.activation s.hidden_layer_size
    (List.range' 1 (s.hidden_layer_size.length - 1)) (s.weights ++ [W0], s.bias ++ [V0], K1)
    with hMID
  set HL := s.hidden_layer_size.getD (s.hidden_layer_size.length - 1) 0 with hHL
  set BL := get_weight_bound nm s.activation HL s.output_size with hBL
  set WL := drawMat rng (-BL) BL HL s.output_size MID.2.2 with hWL
  set VL := drawVec rng (-BL) BL s.output_size (MID.2.2 + HL * s.output_size) with hVL
  have hWres : (allocParams nm rng s s.input_size k).1.weights = MID.1 ++ [WL] := rfl
  have hBres : (allocParams nm rng s s.input_size k).1.bias = MID.2.1 ++ [VL] := rfl
  obtain ⟨hl1, hl2, hpre1, hpre2⟩ := allocHidden_spec nm rng s.activation s.hidden_layer_size
    (List.range' 1 (s.hidden_layer_size.length - 1)) (s.weights ++ [W0]) (s.bias ++ [V0]) K1
  have hwslen : (s.weights ++ [W0]).length = 1 := by rw [hw0]; rfl
  have hbslen : (s.bias ++ [V0]).length = 1 := by rw [hb0]; rfl
  have hmidlen : MID.1.length = s.hidden_layer_size.length := by
    rw [hMID, hl1, hwslen, List.length_range']
    omega
  have hmidlen2 : MID.2.1.length = s.hidden_layer_size.length := by
    rw [hMID, hl2, hbslen, List.length_range']
    omega
  have hszmid : ∀ i, 1 ≤ i → i ≤ s.hidden_layer_size.length →
      (layerSizes s).getD i 0 = s.hidden_layer_size.getD (i - 1) 0 := by
    intro i hi1 hi2
    show (s.input_size :: (s.hidden_layer_size ++ [s.output_size])).getD i 0 = _
    rw [show i = (i - 1) + 1 by omega]
    show (s.hidden_layer_size ++ [s.output_size]).getD (i - 1) 0 = _
    exact List.getD_append _ _ _ _ (by omega)
  have hszlast : (layerSizes s).getD (s.hidden_layer_size.length + 1) 0 = s.output_size :=
    layerSizes_last s
  intro i hi
  by_cases hi0 : i = 0
  · subst hi0
    rw [hWres, hBres, List.getD_append _ _ _ _ (by omega),
      List.getD_append _ _ _ _ (by omega),
      hpre1 0 (by omega), hpre2 0 (by omega), hw0, hb0]
    constructor
    · show hasShape W0 ((layerSizes s).getD 0 0) ((layerSizes s).getD 1 0)
      rw [hszmid 1 (by omega) (by omega)]
      exact drawMat_shape _ _ _ _ _ _
    · show V0.length = (layerSizes s).getD 1 0
      rw [hszmid 1 (by omega) (by omega), hV0, drawVec_length]
  · by_cases hilast : i = s.hidden_layer_size.length
    · subst hilast
      rw [hWres, hBres, ← hmidlen, getD_append_singleton, hmidlen, ← hmidlen2,
        getD_append_singleton, hmidlen2]
      constructor
      · rw [hszmid s.hidden_layer_size.length (by omega) (by omega), hszlast]
        exact drawMat_shape _ _ _ _ _ _
      · rw [hszlast, hVL, drawVec_length]
    · have hi1 : 1 ≤ i := by omega
      have hi2 : i < s.hidden_layer_size.length := by omega
      obtain ⟨hsh, hbl⟩ := allocHidden_shapes nm rng s.activation s.hidden_layer_size
        (List.range' 1 (s.hidden_layer_size.length - 1)) (s.weights ++ [W0]) (s.bias ++ [V0])
        K1 (i - 1) (by rw [List.length_range']; omega)
      have hidx : (List.range' 1 (s.hidden_layer_size.length - 1)).getD (i - 1) 0 = i := by
        rw [getD_range' _ _ _ (by omega)]
        omega
      rw [hidx] at hsh hbl
      rw [hwslen] at hsh
      rw [hbslen] at hbl
      have he1 : 1 + (i - 1) = i := by omega
      rw [he1] at hsh hbl
      rw [hWres, hBres, List.getD_append _ _ _ _ (by omega),
        List.getD_append _ _ _ _ (by omega)]
      constructor
      · rw [hszmid i (by omega) (by omega), hszmid (i + 1) (by omega) (by omega),
          show i + 1 - 1 = i by omega]
        exact hsh
      · rw [hszmid (i + 1) (by omega) (by omega), show i + 1 - 1 = i by omega]
        exact hbl

theorem backward_output_size_eq (nm : NumModel) (s : MLPState) (X : Mat) (y : List ℕ) :
    (backward nm s X y).output_size = s.output_size :=
  (backward_fields_eq nm s X y).2.2.2.2.2.2.2.2.2

theorem runBatches_output_size_eq (nm : NumModel) : ∀ (starts : List ℕ) (s : MLPState)
    (X : Mat) (y : List ℕ), (runBatches nm starts s X y).output_size = s.output_size
  | [], _, _, _ => rfl
  | st :: rest, s, X, y => by
      show (runBatches nm rest (backward nm (forward nm s _).2 _ _) X y).output_size =
        s.output_size
      rw [runBatches_output_size_eq nm rest _ X y, backward_output_size_eq]
      rfl

/-- The epoch loop preserves the three layer-width configuration fields. -/
theorem epochLoop_sizes_eq (nm : NumModel) (rng : RngModel) (sh : Bool) (n : ℕ) :
    ∀ (fuel i : ℕ) (s : MLPState) (X : Mat) (y : List ℕ) (k : ℕ),
      (epochLoop nm rng sh n fuel i s X y k).1.input_size = s.input_size ∧
      (epochLoop nm rng sh n fuel i s X y k).1.output_size = s.output_size ∧
      (epochLoop nm rng sh n fuel i s X y k).1.hidden_layer_size = s.hidden_layer_size
  | 0, _, _, _, _, _ => ⟨rfl, rfl, rfl⟩
  | fuel + 1, i, s, X, y, k => by
      by_cases hlog : i % s.verbose = 0 <;>
      · simp only [epochLoop, hlog, if_true, if_false, ite_true, ite_false]
        obtain ⟨e1, e2, e3⟩ := epochLoop_sizes_eq nm rng sh n fuel (i + 1) _ _ _ _
        exact ⟨e1.trans (runBatches_input_size_eq nm _ s _ _),
          e2.trans (runBatches_output_size_eq nm _ s _ _),
          e3.trans ((runBatches_fields_eq nm _ s _ _).2.2.1)⟩

/-- After the allocation phase of a first `fit` call (empty store, buffers
sized), the engine satisfies the wellformedness invariant. -/
theorem alloc_wf (nm : NumModel) (rng : RngModel) (s : MLPState) (k : ℕ)
    (hw0 : s.weights = []) (hb0 : s.bias = []) (hl0 : s.layers = []) (hd0 : s.deltas = [])
    (hnl : s.n_layers = s.hidden_layer_size.length) (hhid : s.hidden_layer_size ≠ [])
    (hpos : ∀ z ∈ layerSizes s, 0 < z) :
    WfFit (allocBuffers (allocParams nm rng s s.input_size k).1) := by
  obtain ⟨ha1, ha2, -⟩ := allocParams_spec nm rng s s.input_size k hhid
  have hshapes := allocParams_shapes nm rng s k hw0 hb0 hhid
  refine ⟨hnl, ?_, ?_, ?_, ?_, ?_, ?_, ?_⟩
  · show (allocParams nm rng s s.input_size k).1.weights.length = s.n_layers + 1
    rw [ha1, hw0, hnl]
    simp
  · show (allocParams nm rng s s.input_size k).1.bias.length = s.n_layers + 1
    rw [ha2, hb0, hnl]
    simp
  · show ((allocParams nm rng s s.input_size k).1.layers ++
      [zeroMat _ _] ++ _ ++ [zeroMat _ _]).length = s.n_layers + 2
    have hlp : (allocParams nm rng s s.input_size k).1.layers = s.layers := rfl
    rw [hlp, hl0, hnl]
    simp
    rfl
  · show ((allocParams nm rng s s.input_size k).1.deltas ++ _ ++ [zeroMat _ _]).length =
      s.n_layers + 1
    have hdp : (allocParams nm rng s s.input_size k).1.deltas = s.deltas := rfl
    rw [hdp, hd0, hnl]
    simp
    rfl
  · intro i hi
    have hi2 : i < s.hidden_layer_size.length + 1 := by
      have hh : (allocBuffers (allocParams nm rng s s.input_size k).1).n_layers =
        s.n_layers := rfl
      rw [hh, hnl] at hi
      exact hi
    exact (hshapes i hi2).1
  · intro i hi
    have hi2 : i < s.hidden_layer_size.length + 1 := by
      have hh : (allocBuffers (allocParams nm rng s s.input_size k).1).n_layers =
        s.n_layers := rfl
      rw [hh, hnl] at hi
      exact hi
    exact (hshapes i hi2).2
  · exact hpos

/-- C7: starting from a freshly constructed engine with a valid
configuration (cross-entropy loss, nonempty positive hidden widths,
positive input/output widths) and a consistent dataset, after the first
`fit` call — over any number of epochs, with or without shuffling by a
genuine permutation oracle — the store holds exactly
`len(hidden_layer_size) + 1` weight matrices and bias vectors, where
matrix `i` has shape `(sizes[i], sizes[i+1])` and bias `i` has length
`sizes[i+1]` for the topologically ordered width list
`input :: hidden ++ [output]`. -/
theorem C7_first_fit_parameter_shapes (nm : NumModel) (rng : RngModel)
    (input output : ℕ) (hidden : List ℕ) (batch : ℕ) (act outl loss : String)
    (lr rl mom : ℚ) (verb : ℕ) (X : Mat) (y : List ℕ) (max_epochs : ℕ) (shd : Bool)
    (p : ProcState)
    (hloss : loss = "cross_entropy") (hhid : hidden ≠ [])
    (hpos : ∀ h ∈ hidden, 0 < h) (hin : 0 < input) (hout : 0 < output)
    (hlen : y.length = X.length) (hXc : X.ncols = input) (hXr : ∀ r ∈ X, r.length = input)
    (hperm : ∀ kk nn, (rng.permAt kk nn).length = nn ∧ ∀ j ∈ rng.permAt kk nn, j < nn) :
    (fit nm rng (initUnchecked input output hidden batch act outl loss lr rl mom verb)
       X y max_epochs shd p).2.1.weights.length = hidden.length + 1 ∧
    (fit nm rng (initUnchecked input output hidden batch act outl loss lr rl mom verb)
       X y max_epochs shd p).2.1.bias.length = hidden.length + 1 ∧
    (∀ i, i < hidden.length + 1 →
      hasShape ((fit nm rng (initUnchecked input output hidden batch act outl loss lr rl mom
          verb) X y max_epochs shd p).2.1.weights.getD i [])
        ((input :: hidden ++ [output]).getD i 0) ((input :: hidden ++ [output]).getD (i + 1) 0) ∧
      ((fit nm rng (initUnchecked input output hidden batch act outl loss lr rl mom verb)
          X y max_epochs shd p).2.1.bias.getD i []).length =
        (input :: hidden ++ [output]).getD (i + 1) 0) := by
  set s0 := initUnchecked input output hidden batch act outl loss lr rl mom verb with hs0
  have hcond : ¬ y.length ≠ X.length := by simpa using hlen
  have hXc2 : X.ncols = s0.input_size := hXc
  have hposz : ∀ z ∈ layerSizes s0, 0 < z := by
    intro z hz
    simp only [layerSizes, List.mem_cons, List.mem_append, List.mem_singleton] at hz
    rcases hz with (h1 | h2) | h3 | h4
    · subst h1; exact hin
    · exact hpos z h2
    · subst h3; exact hout
    · simp at h4
  have hwfA : WfFit (allocBuffers (allocParams nm rng s0 X.ncols p.npk).1) := by
    rw [hXc2]
    exact alloc_wf nm rng s0 p.npk rfl rfl rfl rfl rfl hhid hposz
  have hwfF : WfFit (fit nm rng s0 X y max_epochs shd p).2.1 := by
    simp only [fit, hcond, if_false, ite_false]
    exact epochLoop_preserves_wf nm rng shd X.length hperm max_epochs 0
      (allocBuffers (allocParams nm rng s0 X.ncols p.npk).1) X y
      (allocParams nm rng s0 X.ncols p.npk).2 hwfA hloss hXr rfl
  obtain ⟨w1, w2, w3, w4, w5, w6, w7, w8⟩ := hwfF
  have hszs : layerSizes (fit nm rng s0 X y max_epochs shd p).2.1 =
      input :: hidden ++ [output] := by
    have hcfg : (fit nm rng s0 X y max_epochs shd p).2.1.input_size = input ∧
        (fit nm rng s0 X y max_epochs shd p).2.1.output_size = output ∧
        (fit nm rng s0 X y max_epochs shd p).2.1.hidden_layer_size = hidden := by
      simp only [fit, hcond, if_false, ite_false]
      obtain ⟨e1, e2, e3⟩ := epochLoop_sizes_eq nm rng shd X.length max_epochs 0
        (allocBuffers (allocParams nm rng s0 X.ncols p.npk).1) X y
        (allocParams nm rng s0 X.ncols p.npk).2
      exact ⟨e1, e2, e3⟩
    unfold layerSizes
    rw [hcfg.1, hcfg.2.1, hcfg.2.2]
  have hnlf : (fit nm rng s0 X y max_epochs shd p).2.1.n_layers = hidden.length := by
    have h1 : (fit nm rng s0 X y max_epochs shd p).2.1.hidden_layer_size = hidden := by
      simp only [fit, hcond, if_false, ite_false]
      exact (epochLoop_sizes_eq nm rng shd X.length max_epochs 0 _ X y _).2.2
    rw [w1, h1]
  refine ⟨by rw [w2, hnlf], by rw [w3, hnlf], ?_⟩
  intro i hi
  refine ⟨?_, ?_⟩
  · have := w6 i (by omega : i < (fit nm rng s0 X y max_epochs shd p).2.1.n_layers + 1)
    rwa [hszs] at this
  · have := w7 i (by omega : i < (fit nm rng s0 X y max_epochs shd p).2.1.n_layers + 1)
    rwa [hszs] at this

/-- Witness for C7 at a concrete configuration, dataset, one epoch of
training and shuffling enabled (with the identity-permutation oracle). -/
theorem C7_first_fit_parameter_shapes_witness :
    (("cross_entropy" : String) = "cross_entropy" ∧ ([1] : List ℕ) ≠ [] ∧
      (∀ h ∈ ([1] : List ℕ), 0 < h) ∧ (0 : ℕ) < 1 ∧
      ([0] : List ℕ).length = ([[0]] : Mat).length ∧ Mat.ncols [[0]] = 1 ∧
      (∀ r ∈ ([[0]] : Mat), r.length = 1) ∧
      (∀ kk nn, (rngId.permAt kk nn).length = nn ∧ ∀ j ∈ rngId.permAt kk nn, j < nn)) ∧
    ((fit nmOne rngId (initUnchecked 1 1 [1] 1 "sigmoid" "softmax" "cross_entropy"
        (1/100) (1/10000) (9/10) 1) [[0]] [0] 1 true ⟨0, 0⟩).2.1.weights.length =
      ([1] : List ℕ).length + 1 ∧
    (fit nmOne rngId (initUnchecked 1 1 [1] 1 "sigmoid" "softmax" "cross_entropy"
        (1/100) (1/10000) (9/10) 1) [[0]] [0] 1 true ⟨0, 0⟩).2.1.bias.length =
      ([1] : List ℕ).length + 1 ∧
    (∀ i, i < ([1] : List ℕ).length + 1 →
      hasShape ((fit nmOne rngId (initUnchecked 1 1 [1] 1 "sigmoid" "softmax" "cross_entropy"
          (1/100) (1/10000) (9/10) 1) [[0]] [0] 1 true ⟨0, 0⟩).2.1.weights.getD i [])
        ((1 :: [1] ++ [1]).getD i 0) ((1 :: [1] ++ [1]).getD (i + 1) 0) ∧
      ((fit nmOne rngId (initUnchecked 1 1 [1] 1 "sigmoid" "softmax" "cross_entropy"
          (1/100) (1/10000) (9/10) 1) [[0]] [0] 1 true ⟨0, 0⟩).2.1.bias.getD i []).length =
        (1 :: [1] ++ [1]).getD (i + 1) 0)) :=
  ⟨⟨rfl, by decide, by decide, by decide, by decide, by decide, by decide,
      fun kk nn => ⟨List.length_range nn, fun j hj => List.mem_range.mp hj⟩⟩,
    C7_first_fit_parameter_shapes nmOne rngId 1 1 [1] 1 "sigmoid" "softmax" "cross_entropy"
      (1/100) (1/10000) (9/10) 1 [[0]] [0] 1 true ⟨0, 0⟩ rfl (by decide) (by decide)
      (by decide) (by decide) (by decide) (by decide) (by decide)
      (fun kk nn => ⟨List.length_range nn, fun j hj => List.mem_range.mp hj⟩)⟩

/-- `tanh(x) = 2 / (1 + exp(-2x)) - 1` over the reals — the source formula
with the true exponential, for the facts that need real analysis. -/
noncomputable def tanhR (x : ℝ) : ℝ := 2 / (1 + Real.exp (-(2 * x))) - 1

/-- `dtanh(z) = 1 - tanh(z)^2` over the reals: the derivative routine
re-applies `tanh` to its argument. -/
noncomputable def dtanhR (z : ℝ) : ℝ := 1 - (tanhR z) ^ 2

/-- The source's formula agrees with the mathematical `tanh`. -/
theorem tanhR_eq_tanh (x : ℝ) : tanhR x = Real.tanh x := by
  rw [Real.tanh_eq_sinh_div_cosh, Real.sinh_eq, Real.cosh_eq, tanhR]
  have he : Real.exp (-(2 * x)) = Real.exp (-x) * Real.exp (-x) := by
    rw [← Real.exp_add]
    ring_nf
  have h1 : Real.exp x ≠ 0 := Real.exp_ne_zero x
  have h2 : Real.exp (-x) = (Real.exp x)⁻¹ := Real.exp_neg x
  have h3 : (0 : ℝ) < 1 + (Real.exp x)⁻¹ * (Real.exp x)⁻¹ := by positivity
  rw [he, h2]
  field_simp
  ring

theorem mul_cosh_sub_sinh_strictMonoOn :
    StrictMonoOn (fun x : ℝ => x * Real.cosh x - Real.sinh x) (Set.Ici 0) := by
  refine strictMonoOn_of_deriv_pos (convex_Ici 0) ?_ ?_
  · exact ((continuous_id.mul Real.continuous_cosh).sub Real.continuous_sinh).continuousOn
  · intro x hx
    rw [interior_Ici, Set.mem_Ioi] at hx
    have hd : HasDerivAt (fun x : ℝ => x * Real.cosh x - Real.sinh x)
        (1 * Real.cosh x + x * Real.sinh x - Real.cosh x) x :=
      ((hasDerivAt_id x).mul (Real.hasDerivAt_cosh x)).sub (Real.hasDerivAt_sinh x)
    rw [hd.deriv]
    have hs : 0 < Real.sinh x := Real.sinh_pos_iff.mpr hx
    nlinarith

/-- On positive arguments `tanh` is strictly below the identity. -/
theorem tanh_lt_self_of_pos (x : ℝ) (hx : 0 < x) : Real.tanh x < x := by
  have h0 : (fun x : ℝ => x * Real.cosh x - Real.sinh x) 0 <
      (fun x : ℝ => x * Real.cosh x - Real.sinh x) x :=
    mul_cosh_sub_sinh_strictMonoOn Set.left_mem_Ici (Set.mem_Ici.mpr hx.le) hx
  simp only [Real.cosh_zero, Real.sinh_zero, mul_one, zero_mul, sub_zero, zero_sub,
    neg_zero, mul_zero] at h0
  rw [Real.tanh_eq_sinh_div_cosh, div_lt_iff (Real.cosh_pos x)]
  nlinarith

theorem tanh_pos_of_pos (x : ℝ) (hx : 0 < x) : 0 < Real.tanh x := by
  rw [Real.tanh_eq_sinh_div_cosh]
  exact div_pos (Real.sinh_pos_iff.mpr hx) (Real.cosh_pos x)

/-- `tanh` strictly contracts every nonzero argument in absolute value. -/
theorem abs_tanh_lt_abs (x : ℝ) (hx : x ≠ 0) : |Real.tanh x| < |x| := by
  rcases lt_or_gt_of_ne hx with hneg | hpos
  · have h1 : 0 < -x := by linarith
    have hlt := tanh_lt_self_of_pos (-x) h1
    have ht := tanh_pos_of_pos (-x) h1
    rw [Real.tanh_neg] at hlt ht
    rw [abs_of_neg (by linarith : Real.tanh x < 0), abs_of_neg hneg]
    linarith
  · have hlt := tanh_lt_self_of_pos x hpos
    have ht := tanh_pos_of_pos x hpos
    rw [abs_of_pos ht, abs_of_pos hpos]
    exact hlt

theorem tanh_eq_zero_iff_my (x : ℝ) : Real.tanh x = 0 ↔ x = 0 := by
  constructor
  · intro h
    by_contra hne
    rcases lt_or_gt_of_ne hne with hneg | hpos
    · have h1 : 0 < -x := by linarith
      have := tanh_pos_of_pos (-x) h1
      rw [Real.tanh_neg] at this
      linarith
    · have := tanh_pos_of_pos x hpos
      linarith
  · rintro rfl
    exact Real.tanh_zero

/-- Counterexample to C3 as stated: at the post-activation value
`a = tanh(1)`, the configured derivative `1 - tanh(a)^2` differs from
`1 - a*a` — the second `tanh` application changes the value. -/
theorem C3_counterexample : dtanhR (tanhR 1) ≠ 1 - tanhR 1 * tanhR 1 := by
  rw [dtanhR, tanhR_eq_tanh, tanhR_eq_tanh]
  intro h
  have ha : Real.tanh 1 ≠ 0 := by
    have := tanh_pos_of_pos 1 one_pos
    linarith
  have habs := abs_tanh_lt_abs (Real.tanh 1) ha
  have hsq : (Real.tanh (Real.tanh 1)) ^ 2 < (Real.tanh 1) ^ 2 := by
    rw [← sq_abs (Real.tanh (Real.tanh 1)), ← sq_abs (Real.tanh 1)]
    exact pow_lt_pow_left habs (abs_nonneg _) (by norm_num)
  nlinarith

/-- C3 (amended): evaluating the configured tanh derivative on a
post-activation value `a = tanh(net)` yields `1 - tanh(a)^2`, which equals
`1 - a*a` exactly when `net = 0` (equivalently `a = 0`); for every nonzero
activation the two differ, so substituting `1 - a*a` is *not* a
value-preserving simplification of this code. -/
theorem C3_dtanh_on_activation_iff (net : ℝ) :
    dtanhR (tanhR net) = 1 - tanhR net * tanhR net ↔ net = 0 := by
  rw [dtanhR, tanhR_eq_tanh, tanhR_eq_tanh]
  constructor
  · intro h
    by_contra hne
    have ha : Real.tanh net ≠ 0 := fun h0 => hne ((tanh_eq_zero_iff_my net).mp h0)
    have habs := abs_tanh_lt_abs (Real.tanh net) ha
    have hsq : (Real.tanh (Real.tanh net)) ^ 2 < (Real.tanh net) ^ 2 := by
      rw [← sq_abs (Real.tanh (Real.tanh net)), ← sq_abs (Real.tanh net)]
      exact pow_lt_pow_left habs (abs_nonneg _) (by norm_num)
    nlinarith
  · rintro rfl
    simp [Real.tanh_zero]
